import Mathlib

/-!
# Verification of the eXv6 persistent-storage subsystem (mkfs and the log)

Shallow embedding of `src/mkfs/mkfs.c` (the offline image builder) and, for
the write-ahead-log commit protocol whose kernel code is not in `src/`, a
model built from the specification.  All machine integers are modelled as
`Nat` with explicit reductions modulo 2^w at the points where the C code
truncates.
-/

namespace EXv6

/-! ## Byte-order encoding (`xshort` / `xint` in mkfs.c)

`xint(x)` stores the bytes `x, x>>8, x>>16, x>>24` into the four bytes of
the result, so the memory image of the returned `uint` is the little-endian
encoding of `x` on every host.  We model a 4-byte field of an on-disk
struct by the list of its memory bytes. -/

/-- Little-endian 2-byte encoding, the memory image of `xshort x`. -/
def le2 (x : Nat) : List Nat := [x % 256, x / 256 % 256]

/-- Little-endian 4-byte encoding, the memory image of `xint x`. -/
def le4 (x : Nat) : List Nat :=
  [x % 256, x / 256 % 256, x / 65536 % 256, x / 16777216 % 256]

/-- Memory image of a `uint` holding value `x` on a host of the given
endianness (`little = true` for little-endian hosts).  A field assigned
without `xint` conversion is laid out this way. -/
def hostBytes4 (little : Bool) (x : Nat) : List Nat :=
  if little then le4 x else (le4 x).reverse

/-- Modelled from the spec: `FSMAGIC`, the superblock magic number, lives in
`kernel/fs.h` which is not among the provided sources; we use the value of
the upstream xv6-riscv code base this repository forks. -/
def FSMAGIC : Nat := 0x10203040

/-! ## mkfs layout computation (mkfs.c lines 60-149)

`NINODES = 200` is defined in mkfs.c itself; `FSSIZE`, `LOGSIZE`, `IPB`,
`BPB` come from headers outside `src/`, so the layout is parametric in
them. -/

/-- `NINODES` from mkfs.c line 60. -/
def NINODES : Nat := 200

/-- `nbitmap = FSSIZE / BPB + 1` (mkfs.c line 65). -/
def nbitmap (FSSIZE BPB : Nat) : Nat := FSSIZE / BPB + 1

/-- `ninodeblocks = NINODES / IPB + 1` (mkfs.c line 66). -/
def ninodeblocks (IPB : Nat) : Nat := NINODES / IPB + 1

/-- `nmeta = 2 + nlog + ninodeblocks + nbitmap` (mkfs.c line 139). -/
def nmeta (FSSIZE nlog IPB BPB : Nat) : Nat :=
  2 + nlog + ninodeblocks IPB + nbitmap FSSIZE BPB

/-- `nblocks = FSSIZE - nmeta` (mkfs.c line 140). -/
def nblocksOf (FSSIZE nlog IPB BPB : Nat) : Nat :=
  FSSIZE - nmeta FSSIZE nlog IPB BPB

/-- `sb.logstart = xint(2)` (mkfs.c line 147). -/
def logstart : Nat := 2

/-- `sb.inodestart = xint(2 + nlog)` (mkfs.c line 148). -/
def inodestart (nlog : Nat) : Nat := 2 + nlog

/-- `sb.bmapstart = xint(2 + nlog + ninodeblocks)` (mkfs.c line 149). -/
def bmapstart (nlog IPB : Nat) : Nat := 2 + nlog + ninodeblocks IPB

/-- Memory image of `struct superblock` as mkfs fills it (mkfs.c lines
142-149) on a host of endianness `little`.  The field order
magic, size, nblocks, ninodes, nlog, logstart, inodestart, bmapstart is
modelled from the spec (the struct declaration is in `kernel/fs.h`, outside
`src/`).  Every field but `magic` goes through `xint`, hence has
little-endian memory bytes on every host; `magic` is assigned directly and
keeps the host's byte order. -/
def superblockBytes (little : Bool) (FSSIZE nlog IPB BPB : Nat) : List Nat :=
  hostBytes4 little FSMAGIC ++
  le4 FSSIZE ++
  le4 (nblocksOf FSSIZE nlog IPB BPB) ++
  le4 NINODES ++
  le4 nlog ++
  le4 logstart ++
  le4 (inodestart nlog) ++
  le4 (bmapstart nlog IPB)

/-- The region (in the fixed on-disk order) that block `b` belongs to,
for the layout mkfs records: 0 = boot, 1 = superblock, 2 = log,
3 = inode table, 4 = bitmap, 5 = data. -/
def regionOf (FSSIZE nlog IPB BPB : Nat) (b : Nat) : Nat :=
  if b = 0 then 0
  else if b = 1 then 1
  else if b < inodestart nlog then 2
  else if b < bmapstart nlog IPB then 3
  else if b < nmeta FSSIZE nlog IPB BPB then 4
  else 5

end EXv6

namespace EXv6

/-! ## Write-ahead log commit protocol and recovery

Modelled from the spec: the kernel's logging layer (`log.c`, the
`commit`/`install_trans`/`recover_from_log` routines of section 4.2) is not
among the provided sources, so the four-step commit protocol and boot-time
recovery are modelled from the specification's words: (1) write logged
block contents to the log slots; (2) write the log header - the atomic
commit point; (3) install each logged block to its true location; (4) zero
the header.  Recovery reads the header; if it lists blocks it copies each
from its log slot to its true location and clears the header. -/

/-- On-disk state relevant to the log: the log header (count of logged
blocks and their destination block numbers), the contents of the log data
slots, and the true (home) locations of all blocks. -/
structure LogDisk where
  hdrN : Nat
  hdrBlk : Nat → Nat
  slot : Nat → Nat
  data : Nat → Nat

/-- A transaction: the final contents recorded by `log_write` for each
distinct destination block number. -/
abbrev Tx := List (Nat × Nat)

/-- Install the first `j` logged blocks to their true locations, each copied
from its log slot as the header directs (step 3 of the commit protocol, and
the body of recovery). -/
def installN (d : LogDisk) (j : Nat) : LogDisk :=
  (List.range j).foldl
    (fun e i => { e with data := Function.update e.data (e.hdrBlk i) (e.slot i) }) d

/-- Step 1, partially done: the first `k` of the transaction's blocks have
been copied into their log slots. -/
def writeSlots (d : LogDisk) (tx : Tx) (k : Nat) : LogDisk :=
  { d with slot := fun i => if i < k then ((tx.getD i (0, 0)).2) else d.slot i }

/-- Step 2: write the log header, the atomic commit point. -/
def writeHeader (d : LogDisk) (tx : Tx) : LogDisk :=
  { d with hdrN := tx.length, hdrBlk := fun i => (tx.getD i (0, 0)).1 }

/-- Step 4 (and the tail of recovery): zero the header count. -/
def zeroHeader (d : LogDisk) : LogDisk := { d with hdrN := 0 }

/-- Boot-time recovery: if the header lists blocks, copy each from its log
slot to its true location, then clear the header. -/
def recover (d : LogDisk) : LogDisk :=
  if d.hdrN = 0 then d else zeroHeader (installN d d.hdrN)

/-- Every disk state reachable by crashing the commit protocol at any
point: after each single slot write of step 1, after the atomic header
write, after each single install of step 3, and after the header zeroing. -/
def commitCrashStates (d : LogDisk) (tx : Tx) : List LogDisk :=
  ((List.range (tx.length + 1)).map (fun k => writeSlots d tx k)) ++
  (let dh := writeHeader (writeSlots d tx tx.length) tx
   ((List.range (tx.length + 1)).map (fun j => installN dh j)) ++
   [zeroHeader (installN dh tx.length)])

/-- The effect the transaction is meant to have on the true locations. -/
def txApply (tx : Tx) (data : Nat → Nat) : Nat → Nat :=
  fun b =>
    match tx.reverse.find? (fun e => e.1 = b) with
    | some e => e.2
    | none => data b

/-! ## mkfs input-name handling and failure taxonomy (mkfs.c `main`, `die`)

Names are modelled as lists of characters; an input file argument carries
the outcome of the host `open` call and its content bytes, and the
environment records whether the image file opens and whether every raw
sector transfer moves a full block (a short `read`/`write` in
`wsect`/`rsect` calls `die`). -/

/-- One input file argument as mkfs sees it. -/
structure InputFile where
  argName : List Char
  opens : Bool
  content : List Nat

/-- The environment of one mkfs run. -/
structure MkfsEnv where
  imageOpens : Bool
  sectorIOOk : Bool
  files : List InputFile

/-- `user/` prefix removal (mkfs.c lines 182-190): only the literal leading
`user/` is removed, by a five-character `strncmp`. -/
def stripUserDir (s : List Char) : List Char :=
  if s.take 5 = [ 'u', 's', 'e', 'r', '/' ] then s.drop 5 else s

/-- One leading `_` removal (mkfs.c line 203: `if (shortname[0] == '_')
shortname += 1;`). -/
def stripUnderscore (s : List Char) : List Char :=
  if s.head? = some '_' then s.tail else s

/-- The directory-entry name mkfs derives from an input argument (mkfs.c
lines 178-215): strip a literal leading `user/`; abort (`assert`, line 192)
if a `/` remains; strip one leading `_` (line 203); abort (`assert`, line
208) if the result exceeds `DIRSIZ`; the entry's name field receives the
result through `strncpy(de.name, shortname, DIRSIZ)` (line 214).  `none`
means the run aborts before creating the entry. -/
def mkfsEntryName (DIRSIZ : Nat) (arg : List Char) : Option (List Char) :=
  if '/' ∈ stripUserDir arg then none
  else if (stripUnderscore (stripUserDir arg)).length ≤ DIRSIZ then
    some ((stripUnderscore (stripUserDir arg)).take DIRSIZ)
  else none

/-- The name the spec's words prescribe: everything after the last `/` of
the argument. -/
def basename : List Char → List Char
  | [] => []
  | c :: cs =>
    if c = '/' then basename cs
    else if '/' ∈ cs then basename cs
    else c :: cs

/-- The spec's entry name: the argument stripped of any path prefix and of
one leading `_`, truncated to the name-field length. -/
def specEntryName (DIRSIZ : Nat) (arg : List Char) : List Char :=
  (stripUnderscore (basename arg)).take DIRSIZ

/-- Inodes a completed run has allocated: the root directory inode plus one
per input file (`ialloc` calls at mkfs.c lines 165 and 210). -/
def inodesAllocated (env : MkfsEnv) : Nat := 1 + env.files.length

/-! ## `iappend` and the inode block mapping (mkfs.c lines 332-389)

The file-system geometry constants (`BSIZE`, `NDIRECT`, `NINDIRECT`) come
from `kernel/fs.h`, which is not in `src/`, so the embedding is parametric
in them; `MAXFILE = NDIRECT + NINDIRECT` as in that header (per the spec's
"size ≤ (direct-count + blocks-per-indirect) × block-size").

The disk image is a map from block number to cell contents.  A data block
stores bytes at byte offsets; an indirect block stores 32-bit block numbers
at entry offsets (the C code reads it as a `uint` array through
`rsect`/`wsect`).  Inodes live in a region of blocks disjoint from every
block `freeblock` ever allocates (`freeblock` starts at `nmeta`), so the
inode being appended to is modelled as a separate component updated by
`rinode`/`winode` round-trips. -/

/-- Geometry parameters from the fs headers. -/
structure FsParams where
  BSIZE : Nat
  NDIRECT : Nat
  NINDIRECT : Nat

/-- `MAXFILE = NDIRECT + NINDIRECT`. -/
def MAXFILE (P : FsParams) : Nat := P.NDIRECT + P.NINDIRECT

/-- The on-disk inode as `iappend` sees it: recorded byte size and the
block-pointer array (`addrs i` for `i < NDIRECT` direct, `addrs NDIRECT`
the indirect pointer). -/
structure Dinode where
  size : Nat
  addrs : Nat → Nat

/-- State threaded through `iappend`: the disk image, the global
`freeblock` cursor, and the inode. -/
structure IState where
  disk : Nat → Nat → Nat
  freeblock : Nat
  din : Dinode

/-- `rsect x buf; bcopy(p, buf + start, n1); wsect x`: overwrite
`bytes.length` cells of one block starting at cell `start`. -/
def writeBytes (blk : Nat → Nat) (start : Nat) (bytes : List Nat) : Nat → Nat :=
  fun o =>
    if start ≤ o ∧ o < start + bytes.length then bytes.getD (o - start) 0
    else blk o

/-- The block-selection-and-allocation part of one `iappend` iteration
(mkfs.c lines 349-374): for `fbn < NDIRECT`, a zero direct pointer is
replaced by `freeblock++`; otherwise a zero indirect pointer is first
replaced by `freeblock++`, then the indirect block's entry `fbn - NDIRECT`
is read, a zero entry is replaced by `freeblock++` and the table written
back.  Returns the updated state and the physical block `x` to write. -/
def bmapAlloc (P : FsParams) (st : IState) (fbn : Nat) : IState × Nat :=
  if fbn < P.NDIRECT then
    if st.din.addrs fbn = 0 then
      ({ st with
          din := { st.din with
            addrs := Function.update st.din.addrs fbn st.freeblock },
          freeblock := st.freeblock + 1 }, st.freeblock)
    else (st, st.din.addrs fbn)
  else
    let st1 :=
      if st.din.addrs P.NDIRECT = 0 then
        { st with
            din := { st.din with
              addrs := Function.update st.din.addrs P.NDIRECT st.freeblock },
            freeblock := st.freeblock + 1 }
      else st
    if st1.disk (st1.din.addrs P.NDIRECT) (fbn - P.NDIRECT) = 0 then
      ({ st1 with
          disk := Function.update st1.disk (st1.din.addrs P.NDIRECT)
            (Function.update (st1.disk (st1.din.addrs P.NDIRECT))
              (fbn - P.NDIRECT) st1.freeblock),
          freeblock := st1.freeblock + 1 }, st1.freeblock)
    else (st1, st1.disk (st1.din.addrs P.NDIRECT) (fbn - P.NDIRECT))

/-- The `while (n > 0)` loop of `iappend` (mkfs.c lines 347-385), with the
remaining bytes as a list; on loop exit the inode's size is set to `off`
(line 387, written back by `winode`).  The fuel only bounds recursion and
never runs out when it exceeds the byte count.  `none` models the
`assert(fbn < MAXFILE)` abort. -/
def iappendLoop (P : FsParams) : Nat → IState → List Nat → Nat → Option IState
  | 0, _, _, _ => none
  | fuel + 1, st, data, off =>
    if data = [] then
      some { st with din := { st.din with size := off } }
    else
      if MAXFILE P ≤ off / P.BSIZE then none
      else
        let fbn := off / P.BSIZE
        let sx := bmapAlloc P st fbn
        let n1 := min data.length ((fbn + 1) * P.BSIZE - off)
        let st2 := { sx.1 with
          disk := Function.update sx.1.disk sx.2
            (writeBytes (sx.1.disk sx.2) (off - fbn * P.BSIZE) (data.take n1)) }
        iappendLoop P fuel st2 (data.drop n1) (off + n1)

/-- `iappend(inum, xp, n)`: append `data` at the inode's recorded size. -/
def iappend (P : FsParams) (st : IState) (data : List Nat) : Option IState :=
  iappendLoop P (data.length + 1) st data st.din.size

/-- The physical block holding file-relative block `fbn`: a direct pointer
for `fbn < NDIRECT`, otherwise entry `fbn - NDIRECT` of the single indirect
block. -/
def blockOf (P : FsParams) (disk : Nat → Nat → Nat) (din : Dinode)
    (fbn : Nat) : Nat :=
  if fbn < P.NDIRECT then din.addrs fbn
  else disk (din.addrs P.NDIRECT) (fbn - P.NDIRECT)

/-- Reading byte `i` of the file back from the image through the inode's
block mapping. -/
def readByte (P : FsParams) (st : IState) (i : Nat) : Nat :=
  st.disk (blockOf P st.disk st.din (i / P.BSIZE)) (i % P.BSIZE)

/-- The block-mapping chain for file block `fbn` is fully allocated
(nonzero pointers all the way down). -/
def MappedNZ (P : FsParams) (st : IState) (fbn : Nat) : Prop :=
  if fbn < P.NDIRECT then st.din.addrs fbn ≠ 0
  else st.din.addrs P.NDIRECT ≠ 0 ∧
    st.disk (st.din.addrs P.NDIRECT) (fbn - P.NDIRECT) ≠ 0

/-- Well-formedness of an `iappend` state: the `freeblock` cursor is
positive (block 0 is the boot block, and pointer value 0 means
"unallocated"), every pointer in the inode is below the cursor, every block
at or above the cursor is still zero-filled, and all allocated pointers
(direct, indirect, and indirect-table entries) are pairwise distinct. -/
structure WF (P : FsParams) (st : IState) : Prop where
  fb_pos : 0 < st.freeblock
  addrs_lt : ∀ i, i ≤ P.NDIRECT → st.din.addrs i < st.freeblock
  table_lt : st.din.addrs P.NDIRECT ≠ 0 →
    ∀ j, j < P.NINDIRECT → st.disk (st.din.addrs P.NDIRECT) j < st.freeblock
  fresh_zero : ∀ b, st.freeblock ≤ b → ∀ o, st.disk b o = 0
  dir_inj : ∀ i j, i < P.NDIRECT → j < P.NDIRECT → i ≠ j →
    st.din.addrs i ≠ 0 → st.din.addrs i ≠ st.din.addrs j
  dir_ind : ∀ i, i < P.NDIRECT → st.din.addrs i ≠ 0 →
    st.din.addrs i ≠ st.din.addrs P.NDIRECT
  dir_tab : st.din.addrs P.NDIRECT ≠ 0 →
    ∀ i j, i < P.NDIRECT → j < P.NINDIRECT → st.din.addrs i ≠ 0 →
    st.din.addrs i ≠ st.disk (st.din.addrs P.NDIRECT) j
  tab_inj : st.din.addrs P.NDIRECT ≠ 0 →
    ∀ j k, j < P.NINDIRECT → k < P.NINDIRECT → j ≠ k →
    st.disk (st.din.addrs P.NDIRECT) j ≠ 0 →
    st.disk (st.din.addrs P.NDIRECT) j ≠ st.disk (st.din.addrs P.NDIRECT) k
  tab_ind : st.din.addrs P.NDIRECT ≠ 0 → ∀ j, j < P.NINDIRECT →
    st.disk (st.din.addrs P.NDIRECT) j ≠ st.din.addrs P.NDIRECT

/-- A small concrete geometry (block size 4, two direct pointers, four
indirect entries) used to exercise the embedding on closed inputs. -/
def Pw : FsParams := FsParams.mk 4 2 4

/-- An empty initial state: zero-filled disk, empty inode, allocation
cursor at block 1. -/
def stw : IState := IState.mk (fun _ _ => 0) 1 (Dinode.mk 0 (fun _ => 0))

/-- `balloc(used)` (mkfs.c lines 313-330): starting from a zeroed buffer,
set bits `0 .. used-1` byte by byte (`buf[i/8] |= 1 << (i%8)`); the block
is then written at `sb.bmapstart`.  The `assert(used < BPB)` confines the
bitmap to a single block. -/
def ballocBlock : Nat → Nat → Nat
  | 0 => fun _ => 0
  | u + 1 => Function.update (ballocBlock u) (u / 8)
      ((ballocBlock u (u / 8)) ||| (1 <<< (u % 8)))

/-- Bit `b` of a bitmap block: bit `b % 8` of byte `b / 8`. -/
def bitmapBit (blk : Nat → Nat) (b : Nat) : Bool :=
  (blk (b / 8)).testBit (b % 8)

/-- Memory image of `struct dirent`: a 2-byte little-endian inode number
(`xshort`) followed by the name field, zero-padded to `DIRSIZ` bytes
(`bzero` of the struct, then `strcpy`/`strncpy` into `de.name`). -/
def direntBytes (DIRSIZ inum : Nat) (name : List Char) : List Nat :=
  le2 inum ++ (name.map Char.toNat ++ List.replicate (DIRSIZ - name.length) 0)

/-- Decode directory entry `e` of a directory inode by reading its bytes
back through the block mapping: the entry's inode number and name bytes. -/
def direntAt (P : FsParams) (DIRSIZ : Nat) (st : IState) (e : Nat) :
    Nat × List Nat :=
  (readByte P st (e * (2 + DIRSIZ)) +
      256 * readByte P st (e * (2 + DIRSIZ) + 1),
   (List.range DIRSIZ).map (fun j => readByte P st (e * (2 + DIRSIZ) + 2 + j)))

/-- The root-directory creation steps of mkfs `main` (lines 165-176): the
root inode is the first `ialloc` result (inum 1, checked equal to
`ROOTINO` by the assert at line 166), and a `.` entry then a `..` entry,
each bearing the root's own inode number, are appended in order. -/
def rootBuild (P : FsParams) (DIRSIZ : Nat) (st : IState) : Option IState :=
  match iappend P st (direntBytes DIRSIZ 1 [ '.' ]) with
  | none => none
  | some st1 => iappend P st1 (direntBytes DIRSIZ 1 [ '.', '.' ])

/-- Modelled from the spec (block size 1024 per section 8; NDIRECT and
NINDIRECT from the upstream xv6 `kernel/fs.h`, absent from `src/`): the
live geometry of the image builder. -/
def Px : FsParams := FsParams.mk 1024 12 256

/-- The state of the disk image when mkfs starts building the root
directory: zero-filled image, allocation cursor at `nmeta` (46 with the
upstream parameter values, mkfs.c line 154), empty root inode. -/
def stx : IState := IState.mk (fun _ _ => 0) 46 (Dinode.mk 0 (fun _ => 0))

/-- The root-inode size fixup of mkfs `main` (lines 226-232):
`off = ((din.size / BSIZE) + 1) * BSIZE`. -/
def rootSizeFix (BSIZE size : Nat) : Nat := (size / BSIZE + 1) * BSIZE

/-- One input file's processing (mkfs.c lines 178-223), with every abort
path and the real appends, threading the shared disk image and `freeblock`
cursor together with the root directory inode (in `din`) and the
`freeinode` counter: the no-slash `assert` (line 192), the input `open`
(line 194, `die`, exit 1), the one-`_` strip (line 203), the name-length
`assert` (line 208), `ialloc` with **no** inode-count check (line 210),
the root directory entry appended with `iappend` (line 215, whose
`assert(fbn < MAXFILE)` aborts when the root directory outgrows the block
mapping), and the content copy loop (lines 217-221, the same assert
aborting when the file outgrows it; the file's inode starts empty).
`Except.error e` is a nonzero exit status (1 for `die`, 2 for a failed
`assert`). -/
def mkfsFilesLoop (P : FsParams) (DIRSIZ : Nat) :
    List InputFile → IState → Nat → Except Nat (IState × Nat)
  | [], st, freeinode => Except.ok (st, freeinode)
  | f :: fs, st, freeinode =>
    if '/' ∈ stripUserDir f.argName then Except.error 2
    else if f.opens then
      (if DIRSIZ < (stripUnderscore (stripUserDir f.argName)).length then
        Except.error 2
      else
        match iappend P st (direntBytes DIRSIZ freeinode
            (stripUnderscore (stripUserDir f.argName))) with
        | none => Except.error 2
        | some st1 =>
          match iappend P (IState.mk st1.disk st1.freeblock
              (Dinode.mk 0 (fun _ => 0))) f.content with
          | none => Except.error 2
          | some st2 =>
            mkfsFilesLoop P DIRSIZ fs
              (IState.mk st2.disk st2.freeblock st1.din) (freeinode + 1))
    else Except.error 1

/-- Exit status of one mkfs run, following `main`'s failure paths in
source order (mkfs.c lines 113-237): `die` (exit 1) if the image cannot
be opened (line 135) or a sector transfer is short (first hit in the
zero-fill loop, lines 156-159, via `wsect`); then the root `.` and `..`
entries (`rootBuild`, lines 165-176) on the zero-filled image with the
allocation cursor at `nmeta0` (line 154); then the per-file loop with
`freeinode` at 2; finally `balloc(freeblock)` whose `assert(used < BPB)`
(line 320) aborts when the consumed blocks outgrow the single bitmap
block; 0 on completion. -/
def mkfsExitStatus (P : FsParams) (DIRSIZ BPB nmeta0 : Nat)
    (env : MkfsEnv) : Nat :=
  if env.imageOpens then
    if env.sectorIOOk then
      match rootBuild P DIRSIZ
          (IState.mk (fun _ _ => 0) nmeta0 (Dinode.mk 0 (fun _ => 0))) with
      | none => 2
      | some st0 =>
        match mkfsFilesLoop P DIRSIZ env.files st0 2 with
        | Except.error e => e
        | Except.ok r => if r.1.freeblock < BPB then 0 else 2
    else 1
  else 1

/-- A one-file environment used to exercise the exit-status model. -/
def envW : MkfsEnv :=
  MkfsEnv.mk true true [InputFile.mk [ 'a' ] true [7]]

/-- C1 (counterexample): the claim asserts that the magic number is encoded
in fixed little-endian byte order independent of the host.  On a big-endian
host the superblock's first four bytes are the big-endian image of the
magic, which differs from the little-endian one: the claim is false. -/
theorem superblock_magic_not_host_independent :
    (superblockBytes false 2000 30 16 8192).take 4 ≠
      (superblockBytes true 2000 30 16 8192).take 4 := by
  decide

/-- C1 (amended): on every host, the seven unsigned 32-bit fields after the
magic are encoded little-endian, independent of host endianness, in the
fixed order size, data-blocks, inode-count, log-length, log-start,
inode-start, bitmap-start; the magic field alone is stored in the host's
native byte order. -/
theorem superblock_fields_little_endian (little : Bool)
    (FSSIZE nlog IPB BPB : Nat) :
    (superblockBytes little FSSIZE nlog IPB BPB).drop 4 =
      le4 FSSIZE ++ le4 (nblocksOf FSSIZE nlog IPB BPB) ++ le4 NINODES ++
        le4 nlog ++ le4 logstart ++ le4 (inodestart nlog) ++
        le4 (bmapstart nlog IPB) ∧
    (superblockBytes little FSSIZE nlog IPB BPB).take 4 =
      hostBytes4 little FSMAGIC := by
  constructor
  · cases little <;> simp [superblockBytes, hostBytes4, le4, FSMAGIC]
  · cases little <;> simp [superblockBytes, hostBytes4, le4, FSMAGIC]

/-- C2: the superblock's region-start fields partition the device into
disjoint contiguous regions in the fixed order boot (block 0), superblock
(block 1), log of `nlog` blocks at `logstart = 2`, inode table at
`inodestart = 2 + nlog`, bitmap at `bmapstart = 2 + nlog + ninodeblocks`,
and data filling the remainder up to the recorded size `FSSIZE`. -/
theorem layout_partitions_device (FSSIZE nlog IPB BPB : Nat)
    (hfit : nmeta FSSIZE nlog IPB BPB ≤ FSSIZE) :
    inodestart nlog = logstart + nlog ∧
    bmapstart nlog IPB = inodestart nlog + ninodeblocks IPB ∧
    nmeta FSSIZE nlog IPB BPB = bmapstart nlog IPB + nbitmap FSSIZE BPB ∧
    nmeta FSSIZE nlog IPB BPB + nblocksOf FSSIZE nlog IPB BPB = FSSIZE ∧
    (∀ b, b < FSSIZE →
      (regionOf FSSIZE nlog IPB BPB b = 0 ↔ b = 0) ∧
      (regionOf FSSIZE nlog IPB BPB b = 1 ↔ b = 1) ∧
      (regionOf FSSIZE nlog IPB BPB b = 2 ↔
        logstart ≤ b ∧ b < logstart + nlog) ∧
      (regionOf FSSIZE nlog IPB BPB b = 3 ↔
        inodestart nlog ≤ b ∧ b < inodestart nlog + ninodeblocks IPB) ∧
      (regionOf FSSIZE nlog IPB BPB b = 4 ↔
        bmapstart nlog IPB ≤ b ∧
          b < bmapstart nlog IPB + nbitmap FSSIZE BPB) ∧
      (regionOf FSSIZE nlog IPB BPB b = 5 ↔
        nmeta FSSIZE nlog IPB BPB ≤ b ∧ b < FSSIZE)) := by
  refine ⟨rfl, rfl, rfl, ?_, ?_⟩
  · simp only [nblocksOf]; omega
  · intro b hb
    unfold nmeta at hfit
    unfold regionOf logstart inodestart bmapstart nmeta
    refine ⟨?_, ?_, ?_, ?_, ?_, ?_⟩ <;> split_ifs <;> (try simp_all) <;> omega

/-- C2 (witness): with the upstream parameter values FSSIZE = 2000,
LOGSIZE = 30, IPB = 16, BPB = 8192 the metadata fits the device. -/
theorem layout_partitions_device_witness :
    nmeta 2000 30 16 8192 ≤ 2000 ∧
    nmeta 2000 30 16 8192 + nblocksOf 2000 30 16 8192 = 2000 := by
  refine ⟨by decide, (layout_partitions_device 2000 30 16 8192 (by decide)).2.2.2.1⟩

theorem installN_succ (d : LogDisk) (j : Nat) :
    installN d (j + 1) =
      { installN d j with
        data := Function.update (installN d j).data
          ((installN d j).hdrBlk j) ((installN d j).slot j) } := by
  unfold installN
  rw [List.range_succ, List.foldl_append, List.foldl_cons, List.foldl_nil]

theorem installN_hdr (d : LogDisk) (j : Nat) :
    (installN d j).hdrN = d.hdrN ∧ (installN d j).hdrBlk = d.hdrBlk ∧
      (installN d j).slot = d.slot := by
  induction j with
  | zero => exact ⟨rfl, rfl, rfl⟩
  | succ j ih => rw [installN_succ]; exact ih

theorem installN_succ_data (d : LogDisk) (j : Nat) :
    (installN d (j + 1)).data =
      Function.update (installN d j).data (d.hdrBlk j) (d.slot j) := by
  rcases installN_hdr d j with ⟨-, hB, hS⟩
  rw [installN_succ]
  show Function.update (installN d j).data ((installN d j).hdrBlk j)
      ((installN d j).slot j) = _
  rw [hB, hS]

theorem installN_data (d : LogDisk) (j : Nat) (b : Nat) :
    (installN d j).data b =
      match (List.range j).reverse.find? (fun i => d.hdrBlk i = b) with
      | some i => d.slot i
      | none => d.data b := by
  induction j with
  | zero => simp [installN]
  | succ j ih =>
    rw [installN_succ_data, List.range_succ, List.reverse_append]
    simp only [List.reverse_cons, List.reverse_nil, List.nil_append,
      List.cons_append, List.find?_cons]
    rw [Function.update]
    by_cases hb : d.hdrBlk j = b
    · have hdec : (decide (d.hdrBlk j = b)) = true := by simp [hb]
      simp only [hdec]
      simp [hb]
    · have hdec : (decide (d.hdrBlk j = b)) = false := by simp [hb]
      simp only [hdec, eq_rec_constant]
      rw [dif_neg (by simpa [eq_comm] using hb), ih]

theorem installN_absorb (d : LogDisk) (j n : Nat) (hj : j ≤ n) (b : Nat) :
    (installN (installN d j) n).data b = (installN d n).data b := by
  rcases installN_hdr d j with ⟨-, hB, hS⟩
  rw [installN_data (installN d j) n b, installN_data d n b, hB, hS]
  cases hfind : (List.range n).reverse.find? (fun i => d.hdrBlk i = b) with
  | some i => simp only [hfind]
  | none =>
    simp only [hfind]
    rw [installN_data d j b]
    have hnone : (List.range j).reverse.find? (fun i => d.hdrBlk i = b) = none := by
      rw [List.find?_eq_none] at hfind ⊢
      intro x hx
      exact hfind x (by simp at hx ⊢; omega)
    simp only [hnone]

theorem installN_data_congr (d e : LogDisk) (n : Nat)
    (hdata : d.data = e.data)
    (hB : ∀ i, i < n → d.hdrBlk i = e.hdrBlk i)
    (hS : ∀ i, i < n → d.slot i = e.slot i) :
    (installN d n).data = (installN e n).data := by
  induction n with
  | zero => exact hdata
  | succ n ih =>
    rw [installN_succ_data, installN_succ_data,
      hB n (Nat.lt_succ_self n), hS n (Nat.lt_succ_self n),
      ih (fun i hi => hB i (Nat.lt_succ_of_lt hi))
        (fun i hi => hS i (Nat.lt_succ_of_lt hi))]

theorem installAll_eq_txApply (d0 : LogDisk) (tx : Tx) (b : Nat) :
    (installN (writeHeader (writeSlots d0 tx tx.length) tx) tx.length).data b =
      txApply tx d0.data b := by
  induction tx using List.reverseRecOn generalizing b with
  | nil => simp [installN, txApply, writeHeader, writeSlots]
  | append_singleton l e ih =>
    have hlen : (l ++ [e]).length = l.length + 1 := by simp
    rw [hlen, installN_succ_data]
    have hgetlast : ((l ++ [e]).getD l.length (0, 0)) = e := by
      simp [List.getD_eq_getElem?_getD]
    have hhdr : (writeHeader (writeSlots d0 (l ++ [e]) (l.length + 1))
        (l ++ [e])).hdrBlk l.length = e.1 := by
      show ((l ++ [e]).getD l.length (0, 0)).1 = e.1
      rw [hgetlast]
    have hslot : (writeHeader (writeSlots d0 (l ++ [e]) (l.length + 1))
        (l ++ [e])).slot l.length = e.2 := by
      show (if l.length < l.length + 1 then ((l ++ [e]).getD l.length (0, 0)).2
        else d0.slot l.length) = e.2
      rw [if_pos (Nat.lt_succ_self l.length), hgetlast]
    rw [hhdr, hslot]
    have hcongr : (installN (writeHeader (writeSlots d0 (l ++ [e])
          (l.length + 1)) (l ++ [e])) l.length).data =
        (installN (writeHeader (writeSlots d0 l l.length) l) l.length).data := by
      apply installN_data_congr
      · rfl
      · intro i hi
        show ((l ++ [e]).getD i (0, 0)).1 = (l.getD i (0, 0)).1
        simp [List.getD_eq_getElem?_getD, List.getElem?_append_left hi]
      · intro i hi
        show (if i < l.length + 1 then ((l ++ [e]).getD i (0, 0)).2
            else d0.slot i) =
          (if i < l.length then (l.getD i (0, 0)).2 else d0.slot i)
        rw [if_pos (Nat.lt_succ_of_lt hi), if_pos hi]
        simp [List.getD_eq_getElem?_getD, List.getElem?_append_left hi]
    have htx : txApply (l ++ [e]) d0.data b =
        if e.1 = b then e.2 else txApply l d0.data b := by
      simp only [txApply, List.reverse_append, List.reverse_cons,
        List.reverse_nil, List.nil_append, List.cons_append, List.find?_cons]
      by_cases hb : e.1 = b
      · have hdec : (decide (e.1 = b)) = true := by simp [hb]
        simp only [hdec]
        simp [hb]
      · have hdec : (decide (e.1 = b)) = false := by simp [hb]
        simp only [hdec, if_neg hb]
    rw [htx, Function.update]
    by_cases hb : e.1 = b
    · simp only [eq_rec_constant, if_pos hb]
      rw [dif_pos hb.symm]
    · simp only [eq_rec_constant, if_neg hb]
      rw [dif_neg (by simpa [eq_comm] using hb), hcongr, ih]

end EXv6

namespace EXv6

/-- C3: for a crash injected at any point of the four-step commit protocol
(write logged blocks to log slots; write the header as the atomic commit
point; install blocks to their true locations; zero the header), boot-time
recovery leaves the true block locations holding either none or all of the
transaction's logged writes - never a proper nonempty subset.  The
precondition is the log invariant at the start of a commit: the on-disk
header is clear. -/
theorem commit_crash_recovery_atomic (d0 : LogDisk) (tx : Tx)
    (hclean : d0.hdrN = 0) :
    ∀ s ∈ commitCrashStates d0 tx,
      (recover s).data = d0.data ∨ (recover s).data = txApply tx d0.data := by
  intro s hs
  simp only [commitCrashStates, List.mem_append, List.mem_map,
    List.mem_range, List.mem_singleton] at hs
  rcases hs with ⟨k, -, hk⟩ | ⟨j, hj, hk⟩ | hk
  · left
    subst hk
    have h0 : (writeSlots d0 tx k).hdrN = 0 := hclean
    rw [recover, if_pos h0]
    rfl
  · subst hk
    have hhdr := (installN_hdr (writeHeader (writeSlots d0 tx tx.length) tx) j).1
    have hN : (installN (writeHeader (writeSlots d0 tx tx.length) tx) j).hdrN =
        tx.length := hhdr
    by_cases hnil : tx.length = 0
    · left
      rw [recover, if_pos (hN.trans hnil)]
      have hj0 : j = 0 := by omega
      subst hj0
      rfl
    · right
      rw [recover, if_neg (by rw [hN]; exact hnil)]
      show (installN (installN (writeHeader (writeSlots d0 tx tx.length) tx) j)
        ((installN (writeHeader (writeSlots d0 tx tx.length) tx) j).hdrN)).data = _
      rw [hN]
      funext b
      rw [installN_absorb _ _ _ (by omega), installAll_eq_txApply]
  · subst hk
    right
    have h0 : (zeroHeader (installN (writeHeader (writeSlots d0 tx tx.length) tx)
        tx.length)).hdrN = 0 := rfl
    rw [recover, if_pos h0]
    funext b
    exact installAll_eq_txApply d0 tx b

/-- C3 (witness): a concrete one-block transaction on a clean log. -/
theorem commit_crash_recovery_atomic_witness :
    (LogDisk.mk 0 (fun _ => 0) (fun _ => 0) (fun _ => 5)).hdrN = 0 ∧
    ∀ s ∈ commitCrashStates (LogDisk.mk 0 (fun _ => 0) (fun _ => 0)
        (fun _ => 5)) [(3, 7)],
      (recover s).data = (LogDisk.mk 0 (fun _ => 0) (fun _ => 0)
          (fun _ => 5)).data ∨
      (recover s).data = txApply [(3, 7)] (LogDisk.mk 0 (fun _ => 0)
          (fun _ => 0) (fun _ => 5)).data :=
  ⟨rfl, commit_crash_recovery_atomic _ _ rfl⟩

end EXv6

namespace EXv6

theorem basename_no_slash (s : List Char) (h : '/' ∉ s) : basename s = s := by
  cases s with
  | nil => rfl
  | cons c cs =>
    simp only [List.mem_cons, not_or] at h
    rw [basename, if_neg (fun hc => h.1 hc.symm), if_neg h.2]

theorem basename_user_dir (s : List Char) (h : '/' ∉ s) :
    basename ([ 'u', 's', 'e', 'r', '/' ] ++ s) = s := by
  have h4 : ('/' : Char) ∈ '/' :: s := List.mem_cons_self _ _
  have h3 : ('/' : Char) ∈ 'r' :: '/' :: s := List.mem_cons_of_mem _ h4
  have h2 : ('/' : Char) ∈ 'e' :: 'r' :: '/' :: s := List.mem_cons_of_mem _ h3
  have h1 : ('/' : Char) ∈ 's' :: 'e' :: 'r' :: '/' :: s := List.mem_cons_of_mem _ h2
  simp only [List.cons_append, List.nil_append]
  rw [basename, if_neg (by decide), if_pos h1,
    basename, if_neg (by decide), if_pos h2,
    basename, if_neg (by decide), if_pos h3,
    basename, if_neg (by decide), if_pos h4,
    basename, if_pos rfl, basename_no_slash s h]

/-- C5: whenever mkfs creates a root-directory entry for an input file
argument (it aborts instead when a path component other than a literal
leading `user/` is present, or when the name exceeds `DIRSIZ`), the entry's
name is the argument's name stripped of its path prefix and of one leading
`_`, truncated to the `DIRSIZ`-character name field. -/
theorem entry_name_matches_spec (DIRSIZ : Nat) (arg nm : List Char)
    (h : mkfsEntryName DIRSIZ arg = some nm) :
    nm = specEntryName DIRSIZ arg := by
  unfold mkfsEntryName at h
  unfold specEntryName
  by_cases hm : '/' ∈ stripUserDir arg
  · rw [if_pos hm] at h; exact absurd h (by simp)
  · rw [if_neg hm] at h
    have hb : basename arg = stripUserDir arg := by
      unfold stripUserDir at hm ⊢
      by_cases h5 : arg.take 5 = [ 'u', 's', 'e', 'r', '/' ]
      · rw [if_pos h5] at hm ⊢
        conv_lhs => rw [← List.take_append_drop 5 arg, h5]
        exact basename_user_dir _ hm
      · rw [if_neg h5] at hm ⊢
        exact basename_no_slash arg hm
    rw [hb]
    by_cases hl : (stripUnderscore (stripUserDir arg)).length ≤ DIRSIZ
    · rw [if_pos hl] at h
      exact (Option.some_inj.mp h).symm
    · rw [if_neg hl] at h
      exact absurd h (by simp)

/-- C5 (witness): the argument `user/_cat` yields the entry name `cat`,
matching the spec's stripping rule. -/
theorem entry_name_matches_spec_witness :
    mkfsEntryName 14 [ 'u', 's', 'e', 'r', '/', '_', 'c', 'a', 't' ] =
      some [ 'c', 'a', 't' ] ∧
    [ 'c', 'a', 't' ] =
      specEntryName 14 [ 'u', 's', 'e', 'r', '/', '_', 'c', 'a', 't' ] :=
  ⟨by decide, entry_name_matches_spec 14 _ _ (by decide)⟩

theorem mkfsEntryName_isSome (DIRSIZ : Nat) (a : List Char) :
    (mkfsEntryName DIRSIZ a).isSome = true ↔
      ('/' ∉ stripUserDir a ∧
        (stripUnderscore (stripUserDir a)).length ≤ DIRSIZ) := by
  unfold mkfsEntryName
  split_ifs with h1 h2 <;> simp_all

theorem iappendLoop_size_le (P : FsParams) (hB : 0 < P.BSIZE) (fuel : Nat) :
    ∀ (data : List Nat) (st : IState) (off : Nat) (st' : IState),
      data ≠ [] →
      iappendLoop P fuel st data off = some st' →
      off + data.length ≤ MAXFILE P * P.BSIZE := by
  induction fuel with
  | zero =>
    intro data st off st' hne hrun
    exact absurd hrun (by simp [iappendLoop])
  | succ fuel ih =>
    intro data st off st' hne hrun
    simp only [iappendLoop, if_neg hne] at hrun
    by_cases hguard : MAXFILE P ≤ off / P.BSIZE
    · rw [if_pos hguard] at hrun
      exact absurd hrun (by simp)
    · rw [if_neg hguard] at hrun
      obtain ⟨fbn, hfbn_def⟩ : ∃ v, off / P.BSIZE = v := ⟨_, rfl⟩
      rw [hfbn_def] at hguard hrun
      obtain ⟨n1, hn1_def⟩ :
          ∃ v, min data.length ((fbn + 1) * P.BSIZE - off) = v := ⟨_, rfl⟩
      rw [hn1_def] at hrun
      have hd2 := Nat.div_add_mod off P.BSIZE
      rw [hfbn_def] at hd2
      have hmod : off % P.BSIZE < P.BSIZE := Nat.mod_lt off hB
      have hmul : fbn * P.BSIZE = P.BSIZE * fbn := Nat.mul_comm _ _
      have hexp : (fbn + 1) * P.BSIZE = fbn * P.BSIZE + P.BSIZE := by ring
      have hlen_pos : 0 < data.length := List.length_pos.mpr hne
      have hmf : fbn + 1 ≤ MAXFILE P := by omega
      have hmfB : (fbn + 1) * P.BSIZE ≤ MAXFILE P * P.BSIZE :=
        Nat.mul_le_mul_right _ hmf
      by_cases hnil : data.drop n1 = []
      · have hlen_le : data.length ≤ n1 := List.drop_eq_nil_iff.mp hnil
        omega
      · have hrec := ih (data.drop n1) _ (off + n1) st' hnil hrun
        rw [List.length_drop] at hrec
        omega

theorem mkfsFilesLoop_error_pos (P : FsParams) (DIRSIZ : Nat)
    (fs : List InputFile) :
    ∀ st freeinode e,
      mkfsFilesLoop P DIRSIZ fs st freeinode = Except.error e →
      e = 1 ∨ e = 2 := by
  induction fs with
  | nil =>
    intro st freeinode e hrun
    exact absurd hrun (by simp [mkfsFilesLoop])
  | cons f fs ih =>
    intro st freeinode e hrun
    simp only [mkfsFilesLoop] at hrun
    by_cases h1 : '/' ∈ stripUserDir f.argName
    · rw [if_pos h1] at hrun
      right; exact (Except.error.inj hrun).symm
    · rw [if_neg h1] at hrun
      by_cases h2 : f.opens = true
      · rw [if_pos h2] at hrun
        by_cases h3 :
            DIRSIZ < (stripUnderscore (stripUserDir f.argName)).length
        · rw [if_pos h3] at hrun
          right; exact (Except.error.inj hrun).symm
        · rw [if_neg h3] at hrun
          cases hap1 : iappend P st (direntBytes DIRSIZ freeinode
              (stripUnderscore (stripUserDir f.argName))) with
          | none =>
            simp only [hap1] at hrun
            right; exact (Except.error.inj hrun).symm
          | some st1 =>
            simp only [hap1] at hrun
            cases hap2 : iappend P (IState.mk st1.disk st1.freeblock
                (Dinode.mk 0 (fun _ => 0))) f.content with
            | none =>
              simp only [hap2] at hrun
              right; exact (Except.error.inj hrun).symm
            | some st2 =>
              simp only [hap2] at hrun
              exact ih _ _ _ hrun
      · rw [if_neg h2] at hrun
        left; exact (Except.error.inj hrun).symm

theorem mkfsFilesLoop_ok_checks (P : FsParams) (hB : 0 < P.BSIZE)
    (DIRSIZ : Nat) (fs : List InputFile) :
    ∀ st freeinode r,
      mkfsFilesLoop P DIRSIZ fs st freeinode = Except.ok r →
      ∀ f ∈ fs, f.opens = true ∧
        (mkfsEntryName DIRSIZ f.argName).isSome = true ∧
        f.content.length ≤ MAXFILE P * P.BSIZE := by
  induction fs with
  | nil =>
    intro st freeinode r hrun f hf
    exact absurd hf (List.not_mem_nil f)
  | cons f fs ih =>
    intro st freeinode r hrun g hg
    simp only [mkfsFilesLoop] at hrun
    by_cases h1 : '/' ∈ stripUserDir f.argName
    · rw [if_pos h1] at hrun
      exact absurd hrun (by simp)
    · rw [if_neg h1] at hrun
      by_cases h2 : f.opens = true
      · rw [if_pos h2] at hrun
        by_cases h3 :
            DIRSIZ < (stripUnderscore (stripUserDir f.argName)).length
        · rw [if_pos h3] at hrun
          exact absurd hrun (by simp)
        · rw [if_neg h3] at hrun
          cases hap1 : iappend P st (direntBytes DIRSIZ freeinode
              (stripUnderscore (stripUserDir f.argName))) with
          | none =>
            simp only [hap1] at hrun
            exact absurd hrun (by simp)
          | some st1 =>
            simp only [hap1] at hrun
            cases hap2 : iappend P (IState.mk st1.disk st1.freeblock
                (Dinode.mk 0 (fun _ => 0))) f.content with
            | none =>
              simp only [hap2] at hrun
              exact absurd hrun (by simp)
            | some st2 =>
              simp only [hap2] at hrun
              rcases List.mem_cons.mp hg with hgf | hgfs
              · subst hgf
                refine ⟨h2, (mkfsEntryName_isSome DIRSIZ g.argName).mpr
                  ⟨h1, Nat.not_lt.mp h3⟩, ?_⟩
                by_cases hc : g.content = []
                · rw [hc]
                  simp
                · unfold iappend at hap2
                  have hsz := iappendLoop_size_le P hB
                    (g.content.length + 1) g.content _ _ _ hc hap2
                  simpa using hsz
              · exact ih _ _ _ hrun g hgfs
      · rw [if_neg h2] at hrun
        exact absurd hrun (by simp)

set_option maxRecDepth 100000 in
/-- C4 (counterexample): with 200 well-formed empty input files mkfs
allocates 201 inodes - the root plus one per file - exceeding the
NINODES = 200 limit recorded in the superblock, yet completes with exit
status 0 (the root directory's 202 entries fit in four direct blocks, the
46 + 4 consumed blocks stay under BPB = 8192, and every other check
passes): `ialloc` has no bound check, so the claimed inode-count failure
exit does not exist. -/
theorem mkfs_exit_zero_beyond_inode_limit :
    mkfsExitStatus Px 14 8192 46 (MkfsEnv.mk true true
        (List.replicate 200 (InputFile.mk [ 'a' ] true []))) = 0 ∧
    NINODES < inodesAllocated (MkfsEnv.mk true true
        (List.replicate 200 (InputFile.mk [ 'a' ] true []))) := by
  constructor
  · decide
  · decide

/-- C4 (amended): mkfs exits nonzero with a diagnostic on every failure in
its taxonomy that it checks - image file unopenable, an input file
unopenable, a short sector transfer, a name with a residual path
component, a name over the length limit, a file or the root directory
outgrowing the inode block mapping (the `iappend` assert), the consumed
blocks outgrowing the single bitmap block (the `balloc` assert) - and
never exits 0 after a partial run: exit status 0 requires the root build,
every per-file stage and the final bitmap bound to succeed, forcing every
file to have been openable, validly named and within the size limit.  It
performs no inode-count check, so allocating more inodes than NINODES is
not a failure it detects. -/
theorem mkfs_no_partial_success (P : FsParams) (hB : 0 < P.BSIZE)
    (DIRSIZ BPB nmeta0 : Nat) (env : MkfsEnv) :
    (env.imageOpens = false → mkfsExitStatus P DIRSIZ BPB nmeta0 env = 1) ∧
    (env.imageOpens = true → env.sectorIOOk = false →
      mkfsExitStatus P DIRSIZ BPB nmeta0 env = 1) ∧
    (mkfsExitStatus P DIRSIZ BPB nmeta0 env = 0 →
      ∀ f ∈ env.files, f.opens = true ∧
        (mkfsEntryName DIRSIZ f.argName).isSome = true ∧
        f.content.length ≤ MAXFILE P * P.BSIZE) ∧
    (mkfsExitStatus P DIRSIZ BPB nmeta0 env = 0 →
      ∃ st0 r, rootBuild P DIRSIZ
          (IState.mk (fun _ _ => 0) nmeta0 (Dinode.mk 0 (fun _ => 0))) =
            some st0 ∧
        mkfsFilesLoop P DIRSIZ env.files st0 2 = Except.ok r ∧
        r.1.freeblock < BPB) := by
  have hkey : mkfsExitStatus P DIRSIZ BPB nmeta0 env = 0 →
      ∃ st0 r, rootBuild P DIRSIZ
          (IState.mk (fun _ _ => 0) nmeta0 (Dinode.mk 0 (fun _ => 0))) =
            some st0 ∧
        mkfsFilesLoop P DIRSIZ env.files st0 2 = Except.ok r ∧
        r.1.freeblock < BPB := by
    intro hexit
    unfold mkfsExitStatus at hexit
    cases hio : env.imageOpens with
    | false => rw [hio] at hexit; exact absurd hexit (by simp)
    | true =>
      rw [hio] at hexit
      cases hsec : env.sectorIOOk with
      | false => rw [hsec] at hexit; exact absurd hexit (by simp)
      | true =>
        rw [hsec] at hexit
        simp only [if_true] at hexit
        cases hrb : rootBuild P DIRSIZ
            (IState.mk (fun _ _ => 0) nmeta0 (Dinode.mk 0 (fun _ => 0))) with
        | none =>
          simp only [hrb] at hexit
          exact absurd hexit (by simp)
        | some st0 =>
          simp only [hrb] at hexit
          cases hloop : mkfsFilesLoop P DIRSIZ env.files st0 2 with
          | error e =>
            simp only [hloop] at hexit
            rcases mkfsFilesLoop_error_pos P DIRSIZ env.files st0 2 e hloop
              with h1 | h2
            · rw [h1] at hexit; exact absurd hexit (by simp)
            · rw [h2] at hexit; exact absurd hexit (by simp)
          | ok r =>
            simp only [hloop] at hexit
            by_cases hfb : r.1.freeblock < BPB
            · exact ⟨st0, r, rfl, hloop, hfb⟩
            · rw [if_neg hfb] at hexit
              exact absurd hexit (by simp)
  refine ⟨?_, ?_, ?_, hkey⟩
  · intro h
    unfold mkfsExitStatus
    rw [h]
    simp
  · intro h1 h2
    unfold mkfsExitStatus
    rw [h1, h2]
    simp
  · intro hexit
    obtain ⟨st0, r, hrb, hloop, hfb⟩ := hkey hexit
    exact mkfsFilesLoop_ok_checks P hB DIRSIZ env.files st0 2 r hloop

/-- C4 (witness): the amended theorem applied at the live geometry to a
one-file environment, exporting the per-file guarantees from exit 0. -/
theorem mkfs_no_partial_success_witness :
    0 < Px.BSIZE ∧
    (mkfsExitStatus Px 14 8192 46 envW = 0 →
      ∀ f ∈ envW.files, f.opens = true ∧
        (mkfsEntryName 14 f.argName).isSome = true ∧
        f.content.length ≤ MAXFILE Px * Px.BSIZE) :=
  ⟨by decide,
   (mkfs_no_partial_success Px (by decide) 14 8192 46 envW).2.2.1⟩

end EXv6

namespace EXv6

theorem blockOf_inj (P : FsParams) (st : IState) (hwf : WF P st)
    (g g' : Nat) (hg : g < MAXFILE P) (hg' : g' < MAXFILE P) (hne : g ≠ g')
    (hm : MappedNZ P st g) (hm' : MappedNZ P st g') :
    blockOf P st.disk st.din g ≠ blockOf P st.disk st.din g' := by
  unfold MAXFILE at hg hg'
  unfold MappedNZ at hm hm'
  unfold blockOf
  by_cases h1 : g < P.NDIRECT <;> by_cases h2 : g' < P.NDIRECT
  · rw [if_pos h1] at hm; rw [if_pos h2] at hm'
    rw [if_pos h1, if_pos h2]
    exact hwf.dir_inj g g' h1 h2 hne hm
  · rw [if_pos h1] at hm; rw [if_neg h2] at hm'
    rw [if_pos h1, if_neg h2]
    exact hwf.dir_tab hm'.1 g (g' - P.NDIRECT) h1 (by omega) hm
  · rw [if_neg h1] at hm; rw [if_pos h2] at hm'
    rw [if_neg h1, if_pos h2]
    exact (hwf.dir_tab hm.1 g' (g - P.NDIRECT) h2 (by omega) hm').symm
  · rw [if_neg h1] at hm; rw [if_neg h2] at hm'
    rw [if_neg h1, if_neg h2]
    exact hwf.tab_inj hm.1 (g - P.NDIRECT) (g' - P.NDIRECT) (by omega) (by omega)
      (by omega) hm.2

end EXv6


namespace EXv6

theorem bmapAlloc_spec (P : FsParams) (st : IState) (fbn : Nat)
    (hwf : WF P st) (hlt : fbn < MAXFILE P) :
    WF P (bmapAlloc P st fbn).1 ∧
    st.freeblock ≤ (bmapAlloc P st fbn).1.freeblock ∧
    (bmapAlloc P st fbn).2 ≠ 0 ∧
    (bmapAlloc P st fbn).2 < (bmapAlloc P st fbn).1.freeblock ∧
    blockOf P (bmapAlloc P st fbn).1.disk (bmapAlloc P st fbn).1.din fbn =
      (bmapAlloc P st fbn).2 ∧
    MappedNZ P (bmapAlloc P st fbn).1 fbn ∧
    (∀ i, i ≤ P.NDIRECT → st.din.addrs i ≠ 0 →
      (bmapAlloc P st fbn).1.din.addrs i = st.din.addrs i) ∧
    (∀ i, i ≤ P.NDIRECT →
      (bmapAlloc P st fbn).1.din.addrs i ≠ st.din.addrs i →
      st.din.addrs i = 0 ∧ st.freeblock ≤ (bmapAlloc P st fbn).1.din.addrs i) ∧
    (∀ b o, (bmapAlloc P st fbn).1.disk b o ≠ st.disk b o →
      b = (bmapAlloc P st fbn).1.din.addrs P.NDIRECT ∧ o = fbn - P.NDIRECT ∧
        st.disk b o = 0) ∧
    (∀ g, MappedNZ P st g → MappedNZ P (bmapAlloc P st fbn).1 g) ∧
    (∀ g, MappedNZ P st g →
      blockOf P (bmapAlloc P st fbn).1.disk (bmapAlloc P st fbn).1.din g =
        blockOf P st.disk st.din g) ∧
    (∀ b, st.freeblock ≤ b → b < (bmapAlloc P st fbn).1.freeblock →
      b = (bmapAlloc P st fbn).1.din.addrs P.NDIRECT ∨
        b = (bmapAlloc P st fbn).2) ∧
    (bmapAlloc P st fbn).1.din.size = st.din.size := by
  unfold MAXFILE at hlt
  by_cases hd : fbn < P.NDIRECT
  · by_cases hz : st.din.addrs fbn = 0
    · -- direct pointer, freshly allocated
      have hsh : bmapAlloc P st fbn =
          ({ st with
              din := { st.din with
                addrs := Function.update st.din.addrs fbn st.freeblock },
              freeblock := st.freeblock + 1 }, st.freeblock) := by
        unfold bmapAlloc; rw [if_pos hd, if_pos hz]
      simp only [hsh]
      have hfb := hwf.fb_pos
      refine ⟨⟨?_, ?_, ?_, ?_, ?_, ?_, ?_, ?_, ?_⟩,
        ?_, ?_, ?_, ?_, ?_, ?_, ?_, ?_, ?_, ?_, ?_, ?_⟩
      · dsimp only; omega
      · dsimp only
        intro i hi
        rw [Function.update_apply]
        have := hwf.addrs_lt i hi
        split_ifs <;> omega
      · dsimp only
        rw [Function.update_noteq (by omega)]
        intro hne j hj
        have := hwf.table_lt hne j hj
        omega
      · dsimp only
        intro b hb o
        exact hwf.fresh_zero b (by omega) o
      · dsimp only
        intro i j hi hj hij
        rw [Function.update_apply, Function.update_apply]
        have hai := hwf.addrs_lt i (by omega)
        have haj := hwf.addrs_lt j (by omega)
        split_ifs with e1 e2 e2
        · omega
        · intro _; omega
        · intro _; omega
        · exact hwf.dir_inj i j hi hj hij
      · dsimp only
        intro i hi
        rw [Function.update_apply, Function.update_noteq (by omega)]
        have hand := hwf.addrs_lt P.NDIRECT le_rfl
        split_ifs with e1
        · intro _; omega
        · exact hwf.dir_ind i hi
      · dsimp only
        rw [Function.update_noteq (by omega)]
        intro hne i j hi hj
        rw [Function.update_apply]
        have hent := hwf.table_lt hne j hj
        split_ifs with e1
        · intro _; omega
        · exact hwf.dir_tab hne i j hi hj
      · dsimp only
        rw [Function.update_noteq (by omega)]
        exact hwf.tab_inj
      · dsimp only
        rw [Function.update_noteq (by omega)]
        exact hwf.tab_ind
      · omega
      · omega
      · omega
      · unfold blockOf
        dsimp only
        rw [if_pos hd, Function.update_same]
      · unfold MappedNZ
        dsimp only
        rw [if_pos hd, Function.update_same]
        omega
      · intro i hi hnz
        rw [Function.update_apply]
        split_ifs with e1
        · exact absurd (e1 ▸ hnz) (fun h => h hz)
        · rfl
      · intro i hi hne
        rw [Function.update_apply] at hne ⊢
        split_ifs with e1
        · exact ⟨e1 ▸ hz, le_rfl⟩
        · rw [if_neg e1] at hne; exact absurd rfl hne
      · intro b o hne
        exact absurd rfl hne
      · intro g hm
        unfold MappedNZ at hm ⊢
        dsimp only
        by_cases hg : g < P.NDIRECT
        · rw [if_pos hg] at hm ⊢
          rw [Function.update_apply]
          split_ifs with e1
          · exact absurd (e1 ▸ hm) (fun h => h hz)
          · exact hm
        · rw [if_neg hg] at hm ⊢
          rw [Function.update_noteq (by omega)]
          exact hm
      · intro g hm
        unfold MappedNZ at hm
        unfold blockOf
        dsimp only
        by_cases hg : g < P.NDIRECT
        · rw [if_pos hg] at hm
          rw [if_pos hg, if_pos hg, Function.update_apply]
          split_ifs with e1
          · exact absurd (e1 ▸ hm) (fun h => h hz)
          · rfl
        · rw [if_neg hg, if_neg hg, Function.update_noteq (by omega)]
      · intro b hb1 hb2
        right
        omega
      · trivial
    · -- direct pointer, already allocated
      have hsh : bmapAlloc P st fbn = (st, st.din.addrs fbn) := by
        unfold bmapAlloc; rw [if_pos hd, if_neg hz]
      simp only [hsh]
      have hax := hwf.addrs_lt fbn (by omega)
      refine ⟨hwf, le_rfl, hz, hax, ?_, ?_,
        fun i hi h => trivial, ?_, ?_, fun g hm => hm, fun g hm => trivial,
        ?_, trivial⟩
      · unfold blockOf; rw [if_pos hd]
      · unfold MappedNZ; rw [if_pos hd]; exact hz
      · intro i hi hne; exact absurd rfl hne
      · intro b o hne; exact absurd rfl hne
      · intro b hb1 hb2; omega
  · by_cases hz0 : st.din.addrs P.NDIRECT = 0
    · -- indirect pointer and table entry both freshly allocated
      have hfresh0 : st.disk st.freeblock (fbn - P.NDIRECT) = 0 :=
        hwf.fresh_zero _ le_rfl _
      have hsh : bmapAlloc P st fbn =
          ({ disk := Function.update st.disk st.freeblock
                (Function.update (st.disk st.freeblock) (fbn - P.NDIRECT)
                  (st.freeblock + 1)),
             freeblock := st.freeblock + 2,
             din := { size := st.din.size,
                      addrs := Function.update st.din.addrs P.NDIRECT
                        st.freeblock } }, st.freeblock + 1) := by
        unfold bmapAlloc
        rw [if_neg hd, if_pos hz0]
        have hupd : Function.update st.din.addrs P.NDIRECT st.freeblock
            P.NDIRECT = st.freeblock := Function.update_same _ _ _
        simp only [hupd, hfresh0, eq_self_iff_true, if_true]
      simp only [hsh]
      have hfb := hwf.fb_pos
      have hfz : ∀ o, st.disk st.freeblock o = 0 :=
        fun o => hwf.fresh_zero _ le_rfl o
      refine ⟨⟨?_, ?_, ?_, ?_, ?_, ?_, ?_, ?_, ?_⟩,
        ?_, ?_, ?_, ?_, ?_, ?_, ?_, ?_, ?_, ?_, ?_, ?_⟩
      · dsimp only; omega
      · dsimp only
        intro i hi
        rw [Function.update_apply]
        have := hwf.addrs_lt i hi
        split_ifs <;> omega
      · dsimp only
        rw [Function.update_same]
        intro hne j hj
        rw [Function.update_same, Function.update_apply]
        split_ifs with e1
        · omega
        · rw [hfz j]; omega
      · dsimp only
        intro b hb o
        rw [Function.update_noteq (by omega)]
        exact hwf.fresh_zero b (by omega) o
      · dsimp only
        intro i j hi hj hij
        rw [Function.update_noteq (by omega), Function.update_noteq (by omega)]
        exact hwf.dir_inj i j hi hj hij
      · dsimp only
        intro i hi
        rw [Function.update_noteq (by omega), Function.update_same]
        intro hnz
        have := hwf.addrs_lt i (by omega)
        omega
      · dsimp only
        rw [Function.update_same]
        intro hne i j hi hj
        rw [Function.update_noteq (by omega), Function.update_same,
          Function.update_apply]
        intro hnz
        have := hwf.addrs_lt i (by omega)
        split_ifs with e1
        · omega
        · rw [hfz j]; omega
      · dsimp only
        rw [Function.update_same]
        intro hne j k hj hk hjk
        rw [Function.update_same, Function.update_apply, Function.update_apply]
        split_ifs with e1 e2 e2
        · omega
        · rw [hfz k]; omega
        · rw [hfz j]; intro h; exact absurd rfl h
        · rw [hfz j]; intro h; exact absurd rfl h
      · dsimp only
        rw [Function.update_same]
        intro hne j hj
        rw [Function.update_same, Function.update_apply]
        split_ifs with e1
        · omega
        · rw [hfz j]; omega
      · omega
      · omega
      · omega
      · unfold blockOf
        dsimp only
        rw [if_neg hd, Function.update_same, Function.update_same,
          Function.update_same]
      · unfold MappedNZ
        dsimp only
        rw [if_neg hd, Function.update_same, Function.update_same,
          Function.update_same]
        omega
      · intro i hi hnz
        rw [Function.update_apply]
        split_ifs with e1
        · exact absurd (e1 ▸ hnz) (fun h => h hz0)
        · rfl
      · intro i hi hne
        rw [Function.update_apply] at hne ⊢
        split_ifs with e1
        · exact ⟨e1 ▸ hz0, le_rfl⟩
        · rw [if_neg e1] at hne; exact absurd rfl hne
      · intro b o hne
        rw [Function.update_same]
        rw [Function.update_apply] at hne
        by_cases e1 : b = st.freeblock
        · subst e1
          rw [if_pos rfl, Function.update_apply] at hne
          by_cases e2 : o = fbn - P.NDIRECT
          · exact ⟨rfl, e2, e2 ▸ hfresh0⟩
          · rw [if_neg e2] at hne; exact absurd rfl hne
        · rw [if_neg e1] at hne; exact absurd rfl hne
      · intro g hm
        unfold MappedNZ at hm ⊢
        dsimp only
        by_cases hg : g < P.NDIRECT
        · rw [if_pos hg] at hm ⊢
          rw [Function.update_noteq (by omega)]
          exact hm
        · rw [if_neg hg] at hm
          exact absurd hm.1 (fun h => h hz0)
      · intro g hm
        unfold MappedNZ at hm
        unfold blockOf
        dsimp only
        by_cases hg : g < P.NDIRECT
        · rw [if_pos hg] at hm
          rw [if_pos hg, if_pos hg, Function.update_noteq (by omega)]
        · rw [if_neg hg] at hm
          exact absurd hm.1 (fun h => h hz0)
      · intro b hb1 hb2
        rw [Function.update_same]
        omega
      · trivial
    · by_cases he : st.disk (st.din.addrs P.NDIRECT) (fbn - P.NDIRECT) = 0
      · -- indirect pointer present, table entry freshly allocated
        have hind := hwf.addrs_lt P.NDIRECT le_rfl
        have hsh : bmapAlloc P st fbn =
            ({ st with
                disk := Function.update st.disk (st.din.addrs P.NDIRECT)
                  (Function.update (st.disk (st.din.addrs P.NDIRECT))
                    (fbn - P.NDIRECT) st.freeblock),
                freeblock := st.freeblock + 1 }, st.freeblock) := by
          unfold bmapAlloc
          rw [if_neg hd]
          simp only [if_neg hz0, if_pos he]
        simp only [hsh]
        have hfb := hwf.fb_pos
        refine ⟨⟨?_, ?_, ?_, ?_, ?_, ?_, ?_, ?_, ?_⟩,
          ?_, ?_, ?_, ?_, ?_, ?_, ?_, ?_, ?_, ?_, ?_, ?_⟩
        · dsimp only; omega
        · dsimp only
          intro i hi
          have := hwf.addrs_lt i hi
          omega
        · dsimp only
          intro hne j hj
          rw [Function.update_same, Function.update_apply]
          have := hwf.table_lt hne j hj
          split_ifs <;> omega
        · dsimp only
          intro b hb o
          rw [Function.update_noteq (by omega)]
          exact hwf.fresh_zero b (by omega) o
        · exact hwf.dir_inj
        · exact hwf.dir_ind
        · dsimp only
          intro hne i j hi hj hnz
          rw [Function.update_same, Function.update_apply]
          have := hwf.addrs_lt i (by omega)
          split_ifs with e1
          · omega
          · exact hwf.dir_tab hne i j hi hj hnz
        · dsimp only
          intro hne j k hj hk hjk
          rw [Function.update_same, Function.update_apply,
            Function.update_apply]
          have htj := hwf.table_lt hne j hj
          have htk := hwf.table_lt hne k hk
          split_ifs with e1 e2 e2
          · omega
          · omega
          · intro h1 h2; omega
          · exact hwf.tab_inj hne j k hj hk hjk
        · dsimp only
          intro hne j hj
          rw [Function.update_same, Function.update_apply]
          split_ifs with e1
          · omega
          · exact hwf.tab_ind hne j hj
        · omega
        · omega
        · omega
        · unfold blockOf
          rw [if_neg hd, Function.update_same, Function.update_same]
        · unfold MappedNZ
          dsimp only
          rw [if_neg hd, Function.update_same, Function.update_same]
          exact ⟨hz0, by omega⟩
        · exact fun i hi h => trivial
        · intro i hi hne; exact absurd rfl hne
        · intro b o hne
          rw [Function.update_apply] at hne
          by_cases e1 : b = st.din.addrs P.NDIRECT
          · subst e1
            rw [if_pos rfl, Function.update_apply] at hne
            by_cases e2 : o = fbn - P.NDIRECT
            · exact ⟨rfl, e2, e2 ▸ he⟩
            · rw [if_neg e2] at hne; exact absurd rfl hne
          · rw [if_neg e1] at hne; exact absurd rfl hne
        · intro g hm
          unfold MappedNZ at hm ⊢
          dsimp only
          by_cases hg : g < P.NDIRECT
          · rw [if_pos hg] at hm ⊢
            exact hm
          · rw [if_neg hg] at hm ⊢
            rw [Function.update_same, Function.update_apply]
            refine ⟨hm.1, ?_⟩
            split_ifs with e1
            · omega
            · exact hm.2
        · intro g hm
          unfold MappedNZ at hm
          unfold blockOf
          by_cases hg : g < P.NDIRECT
          · rw [if_pos hg, if_pos hg]
          · rw [if_neg hg] at hm
            rw [if_neg hg, if_neg hg, Function.update_same,
              Function.update_apply]
            split_ifs with e1
            · rw [e1] at hm
              exact absurd he hm.2
            · rfl
        · intro b hb1 hb2
          right
          omega
        · trivial
      · -- indirect pointer and table entry both already present
        have hsh : bmapAlloc P st fbn =
            (st, st.disk (st.din.addrs P.NDIRECT) (fbn - P.NDIRECT)) := by
          unfold bmapAlloc
          rw [if_neg hd]
          simp only [if_neg hz0, if_neg he]
        simp only [hsh]
        have hent := hwf.table_lt hz0 (fbn - P.NDIRECT) (by omega)
        refine ⟨hwf, le_rfl, he, hent, ?_, ?_,
          fun i hi h => trivial, ?_, ?_, fun g hm => hm, fun g hm => trivial,
          ?_, trivial⟩
        · unfold blockOf; rw [if_neg hd]
        · unfold MappedNZ; rw [if_neg hd]; exact ⟨hz0, he⟩
        · intro i hi hne; exact absurd rfl hne
        · intro b o hne; exact absurd rfl hne
        · intro b hb1 hb2; omega

end EXv6

namespace EXv6

theorem div_eq_of_range (B q n : Nat) (hB : 0 < B)
    (h1 : q * B ≤ n) (h2 : n < (q + 1) * B) : n / B = q := by
  have hle : q ≤ n / B := (Nat.le_div_iff_mul_le hB).mpr h1
  have hlt : n / B < q + 1 := (Nat.div_lt_iff_lt_mul hB).mpr h2
  omega

theorem writeStep_spec (P : FsParams) (hB : 0 < P.BSIZE) (st1 : IState)
    (x fbn off : Nat) (bytes : List Nat) (st2 : IState)
    (hwf : WF P st1) (hx0 : x ≠ 0) (hxlt : x < st1.freeblock)
    (hbo : blockOf P st1.disk st1.din fbn = x)
    (hm : MappedNZ P st1 fbn) (hfbn : fbn < MAXFILE P)
    (hoff : off / P.BSIZE = fbn)
    (hlen : bytes.length ≤ (fbn + 1) * P.BSIZE - off)
    (hst2 : st2 =
      { st1 with
          disk := Function.update st1.disk x
            (writeBytes (st1.disk x) (off - fbn * P.BSIZE) bytes) }) :
    WF P st2 ∧ st2.din = st1.din ∧ st2.freeblock = st1.freeblock ∧
    (∀ g, MappedNZ P st1 g → MappedNZ P st2 g) ∧
    (∀ g, blockOf P st2.disk st2.din g = blockOf P st1.disk st1.din g) ∧
    (∀ j, st2.disk (st1.din.addrs P.NDIRECT) j =
      st1.disk (st1.din.addrs P.NDIRECT) j) ∧
    (∀ i, i / P.BSIZE < MAXFILE P → MappedNZ P st1 (i / P.BSIZE) → i < off →
      readByte P st2 i = readByte P st1 i) ∧
    (∀ k, k < bytes.length → readByte P st2 (off + k) = bytes.getD k 0) := by
  have haux : st1.din.addrs P.NDIRECT ≠ x := by
    by_cases hz0 : st1.din.addrs P.NDIRECT = 0
    · rw [hz0]; exact fun h => hx0 h.symm
    · unfold MappedNZ at hm
      unfold blockOf at hbo
      by_cases hd : fbn < P.NDIRECT
      · rw [if_pos hd] at hbo hm
        rw [← hbo]
        exact fun h => (hwf.dir_ind fbn hd hm) h.symm
      · rw [if_neg hd] at hbo hm
        rw [← hbo]
        exact fun h =>
          (hwf.tab_ind hm.1 (fbn - P.NDIRECT)
            (by unfold MAXFILE at hfbn; omega)) h.symm
  have htbl : ∀ j, st2.disk (st1.din.addrs P.NDIRECT) j =
      st1.disk (st1.din.addrs P.NDIRECT) j := by
    intro j
    rw [hst2]
    dsimp only
    rw [Function.update_noteq haux]
  have hdin : st2.din = st1.din := by rw [hst2]
  have hfb2 : st2.freeblock = st1.freeblock := by rw [hst2]
  have hmono : ∀ g, MappedNZ P st1 g → MappedNZ P st2 g := by
    intro g hg
    unfold MappedNZ at hg ⊢
    rw [hdin]
    by_cases hgd : g < P.NDIRECT
    · rw [if_pos hgd] at hg ⊢; exact hg
    · rw [if_neg hgd] at hg ⊢
      exact ⟨hg.1, (htbl (g - P.NDIRECT)).symm ▸ hg.2⟩
  have hbof : ∀ g, blockOf P st2.disk st2.din g = blockOf P st1.disk st1.din g := by
    intro g
    unfold blockOf
    rw [hdin]
    by_cases hgd : g < P.NDIRECT
    · rw [if_pos hgd, if_pos hgd]
    · rw [if_neg hgd, if_neg hgd]
      exact htbl (g - P.NDIRECT)
  refine ⟨⟨?_, ?_, ?_, ?_, ?_, ?_, ?_, ?_, ?_⟩, hdin, hfb2, hmono, hbof, htbl,
    ?_, ?_⟩
  · rw [hfb2]; exact hwf.fb_pos
  · intro i hi; rw [hdin, hfb2]; exact hwf.addrs_lt i hi
  · rw [hdin, hfb2]
    intro hne j hj
    rw [htbl j]
    exact hwf.table_lt hne j hj
  · intro b hb o
    rw [hfb2] at hb
    rw [hst2]
    dsimp only
    rw [Function.update_noteq (by omega)]
    exact hwf.fresh_zero b hb o
  · rw [hdin]; exact hwf.dir_inj
  · rw [hdin]; exact hwf.dir_ind
  · rw [hdin]
    intro hne i j hi hj hnz
    rw [htbl j]
    exact hwf.dir_tab hne i j hi hj hnz
  · rw [hdin]
    intro hne j k hj hk hjk hnz
    rw [htbl j, htbl k]
    rw [htbl j] at hnz
    exact hwf.tab_inj hne j k hj hk hjk hnz
  · rw [hdin]
    intro hne j hj
    rw [htbl j]
    exact hwf.tab_ind hne j hj
  · -- bytes below `off` are untouched
    intro i hgi hmi hio
    unfold readByte
    rw [hbof]
    set y := blockOf P st1.disk st1.din (i / P.BSIZE) with hy
    by_cases hyx : y = x
    · by_cases hgg : i / P.BSIZE = fbn
      · have hd1 := Nat.div_add_mod i P.BSIZE
        have hd2 := Nat.div_add_mod off P.BSIZE
        rw [hgg] at hd1
        rw [hoff] at hd2
        have hmul : fbn * P.BSIZE = P.BSIZE * fbn := Nat.mul_comm _ _
        rw [hst2]
        dsimp only
        rw [hyx, Function.update_same]
        unfold writeBytes
        rw [if_neg (by omega)]
      · exact absurd (hyx.trans hbo.symm)
          (blockOf_inj P st1 hwf (i / P.BSIZE) fbn hgi hfbn hgg hmi hm)
    · rw [hst2]
      dsimp only
      rw [Function.update_noteq hyx]
  · -- the freshly written bytes read back
    intro k hk
    have hd2 := Nat.div_add_mod off P.BSIZE
    rw [hoff] at hd2
    have hmul : fbn * P.BSIZE = P.BSIZE * fbn := Nat.mul_comm _ _
    have hexp : (fbn + 1) * P.BSIZE = fbn * P.BSIZE + P.BSIZE := by ring
    have hdivk : (off + k) / P.BSIZE = fbn := by
      apply div_eq_of_range _ _ _ hB <;> omega
    have hd3 := Nat.div_add_mod (off + k) P.BSIZE
    rw [hdivk] at hd3
    unfold readByte
    rw [hbof, hdivk, hbo, hst2]
    dsimp only
    rw [Function.update_same]
    unfold writeBytes
    rw [if_pos (by omega)]
    congr 1
    omega

end EXv6

namespace EXv6

theorem blockOf_lt (P : FsParams) (st : IState) (hwf : WF P st)
    (g : Nat) (hg : g < MAXFILE P) (hm : MappedNZ P st g) :
    blockOf P st.disk st.din g < st.freeblock := by
  unfold MAXFILE at hg
  unfold MappedNZ at hm
  unfold blockOf
  by_cases hgd : g < P.NDIRECT
  · rw [if_pos hgd]
    exact hwf.addrs_lt g (by omega)
  · rw [if_neg hgd] at hm
    rw [if_neg hgd]
    exact hwf.table_lt hm.1 (g - P.NDIRECT) (by omega)

theorem blockOf_ne_ind (P : FsParams) (st : IState) (hwf : WF P st)
    (g : Nat) (hg : g < MAXFILE P) (hm : MappedNZ P st g) :
    blockOf P st.disk st.din g ≠ st.din.addrs P.NDIRECT := by
  unfold MAXFILE at hg
  unfold MappedNZ at hm
  unfold blockOf
  by_cases hgd : g < P.NDIRECT
  · rw [if_pos hgd] at hm
    rw [if_pos hgd]
    exact hwf.dir_ind g hgd hm
  · rw [if_neg hgd] at hm
    rw [if_neg hgd]
    exact hwf.tab_ind hm.1 (g - P.NDIRECT) (by omega)

theorem bmapAlloc_readByte_pres (P : FsParams) (st : IState) (fbn : Nat)
    (hwf : WF P st) (hlt : fbn < MAXFILE P) :
    ∀ i, i / P.BSIZE < MAXFILE P → MappedNZ P st (i / P.BSIZE) →
      readByte P (bmapAlloc P st fbn).1 i = readByte P st i := by
  obtain ⟨-, -, -, -, -, -, hpres, hchg, hdchar, -, hbof, -, -⟩ :=
    bmapAlloc_spec P st fbn hwf hlt
  intro i hgi hmi
  unfold readByte
  rw [hbof _ hmi]
  by_cases hsame : (bmapAlloc P st fbn).1.disk
      (blockOf P st.disk st.din (i / P.BSIZE)) (i % P.BSIZE) =
      st.disk (blockOf P st.disk st.din (i / P.BSIZE)) (i % P.BSIZE)
  · exact hsame
  · exfalso
    obtain ⟨hb, -, -⟩ := hdchar _ _ hsame
    have hylt := blockOf_lt P st hwf _ hgi hmi
    have hyne := blockOf_ne_ind P st hwf _ hgi hmi
    by_cases hch : (bmapAlloc P st fbn).1.din.addrs P.NDIRECT =
        st.din.addrs P.NDIRECT
    · rw [hch] at hb
      exact hyne hb
    · obtain ⟨-, hge⟩ := hchg P.NDIRECT le_rfl hch
      omega

theorem WF_set_size (P : FsParams) (st : IState) (n : Nat) (h : WF P st) :
    WF P { st with din := { st.din with size := n } } :=
  ⟨h.fb_pos, h.addrs_lt, h.table_lt, h.fresh_zero, h.dir_inj, h.dir_ind,
    h.dir_tab, h.tab_inj, h.tab_ind⟩

end EXv6

namespace EXv6

theorem iappendLoop_spec (P : FsParams) (hB : 0 < P.BSIZE) (fuel : Nat) :
    ∀ (data : List Nat) (st : IState) (off : Nat) (st' : IState),
    data.length < fuel →
    WF P st →
    iappendLoop P fuel st data off = some st' →
    WF P st' ∧
    st.freeblock ≤ st'.freeblock ∧
    st'.din.size = off + data.length ∧
    (∀ i, i ≤ P.NDIRECT → st.din.addrs i ≠ 0 →
      st'.din.addrs i = st.din.addrs i) ∧
    (∀ i, i ≤ P.NDIRECT → st'.din.addrs i ≠ st.din.addrs i →
      st.din.addrs i = 0 ∧ st.freeblock ≤ st'.din.addrs i) ∧
    (st.din.addrs P.NDIRECT ≠ 0 → ∀ j,
      st.disk (st.din.addrs P.NDIRECT) j ≠ 0 →
      st'.disk (st.din.addrs P.NDIRECT) j =
        st.disk (st.din.addrs P.NDIRECT) j) ∧
    (∀ i, i < off → i / P.BSIZE < MAXFILE P → MappedNZ P st (i / P.BSIZE) →
      readByte P st' i = readByte P st i) ∧
    (∀ k, k < data.length → readByte P st' (off + k) = data.getD k 0) ∧
    (∀ g, MappedNZ P st g → MappedNZ P st' g) ∧
    (∀ g, MappedNZ P st g →
      blockOf P st'.disk st'.din g = blockOf P st.disk st.din g) ∧
    (∀ b, st.freeblock ≤ b → b < st'.freeblock →
      b = st'.din.addrs P.NDIRECT ∨
        ∃ g, g < MAXFILE P ∧ MappedNZ P st' g ∧
          blockOf P st'.disk st'.din g = b) ∧
    (data ≠ [] → (off + data.length - 1) / P.BSIZE < MAXFILE P) ∧
    (∀ i, off ≤ i → i < off + data.length → MappedNZ P st' (i / P.BSIZE)) := by
  induction fuel with
  | zero =>
    intro data st off st' hfuel hwf hrun
    exact absurd hrun (by simp [iappendLoop])
  | succ fuel ih =>
    intro data st off st' hfuel hwf hrun
    by_cases hdata : data = []
    · subst hdata
      simp only [iappendLoop, eq_self_iff_true, if_true, Option.some_inj]
        at hrun
      subst hrun
      refine ⟨WF_set_size P st off hwf, le_rfl, by simp, fun i hi h => rfl,
        ?_, fun hne j hnz => rfl, fun i h1 h2 h3 => rfl, ?_,
        fun g hm => hm, fun g hm => rfl, ?_, fun h => absurd rfl h, ?_⟩
      · intro i hi hne
        exact absurd rfl hne
      · intro k hk
        rw [List.length_nil] at hk
        exact absurd hk (by omega)
      · intro b h1 h2
        have h2c : b < st.freeblock := h2
        exact absurd h2c (by omega)
      · intro i h1 h2
        rw [List.length_nil] at h2
        exact absurd h2 (by omega)
    · simp only [iappendLoop, if_neg hdata] at hrun
      by_cases hguard : MAXFILE P ≤ off / P.BSIZE
      · rw [if_pos hguard] at hrun
        exact absurd hrun (by simp)
      · rw [if_neg hguard] at hrun
        obtain ⟨fbn, hfbn_def⟩ : ∃ v, off / P.BSIZE = v := ⟨_, rfl⟩
        rw [hfbn_def] at hguard hrun
        have hfbn : fbn < MAXFILE P := by omega
        obtain ⟨n1, hn1_def⟩ :
            ∃ v, min data.length ((fbn + 1) * P.BSIZE - off) = v := ⟨_, rfl⟩
        rw [hn1_def] at hrun
        have hd2 := Nat.div_add_mod off P.BSIZE
        rw [hfbn_def] at hd2
        have hmod : off % P.BSIZE < P.BSIZE := Nat.mod_lt off hB
        have hmul : fbn * P.BSIZE = P.BSIZE * fbn := Nat.mul_comm _ _
        have hexp : (fbn + 1) * P.BSIZE = fbn * P.BSIZE + P.BSIZE := by ring
        have hlen_pos : 0 < data.length := List.length_pos.mpr hdata
        have hn1_pos : 0 < n1 := by omega
        have hn1_le : n1 ≤ data.length := by omega
        have hn1_le2 : n1 ≤ (fbn + 1) * P.BSIZE - off := by omega
        obtain ⟨hwf1, hfble1, hx0, hxlt, hbo1, hm1, hpres1, hchg1, hdchar1,
          hmono1, hbof1, hgap1, hsz1⟩ := bmapAlloc_spec P st fbn hwf hfbn
        have hrb1 := bmapAlloc_readByte_pres P st fbn hwf hfbn
        set st1 := (bmapAlloc P st fbn).1 with hst1_def
        set x := (bmapAlloc P st fbn).2 with hx_def
        set bytes := data.take n1 with hbytes_def
        have hbyteslen : bytes.length = n1 := by
          rw [hbytes_def, List.length_take]; omega
        obtain ⟨hwf2, hdin2, hfb2, hmono2, hbof2, htbl2, hrbold2, hrbnew2⟩ :=
          writeStep_spec P hB st1 x fbn off bytes _ hwf1 hx0 hxlt hbo1 hm1
            hfbn hfbn_def (by omega) rfl
        have hfuel2 : (data.drop n1).length < fuel := by
          rw [List.length_drop]; omega
        obtain ⟨ihWF, ihfble, ihsize, ihpres, ihchg, ihtab, ihold, ihnew,
          ihmono, ihbof, ihgap, ihlast, ihcover⟩ :=
          ih (data.drop n1) _ (off + n1) st' hfuel2 hwf2 hrun
        have hdivk : ∀ k, k < n1 → (off + k) / P.BSIZE = fbn := by
          intro k hk
          apply div_eq_of_range _ _ _ hB <;> omega
        refine ⟨ihWF, ?_, ?_, ?_, ?_, ?_, ?_, ?_, ?_, ?_, ?_, ?_, ?_⟩
        · -- freeblock monotone
          rw [hfb2] at ihfble
          omega
        · -- final size
          rw [List.length_drop] at ihsize
          omega
        · -- nonzero direct pointers preserved
          intro i hi hnz
          have e1 := hpres1 i hi hnz
          have hnz1 : st1.din.addrs i ≠ 0 := by rw [e1]; exact hnz
          have e3 := ihpres i hi (by rw [hdin2]; exact hnz1)
          rw [e3, hdin2, e1]
        · -- changed direct pointers were zero and are fresh
          intro i hi hne
          rw [hdin2, hfb2] at ihchg
          by_cases hc : st'.din.addrs i = st1.din.addrs i
          · rw [hc] at hne ⊢
            exact hchg1 i hi hne
          · obtain ⟨hz2, hge2⟩ := ihchg i hi hc
            constructor
            · by_cases hz : st.din.addrs i = 0
              · exact hz
              · rw [hpres1 i hi hz] at hz2
                exact absurd hz2 hz
            · omega
        · -- nonzero indirect-table entries preserved
          intro hne j hnz
          have e1 : st1.disk (st.din.addrs P.NDIRECT) j =
              st.disk (st.din.addrs P.NDIRECT) j := by
            by_cases hsame : st1.disk (st.din.addrs P.NDIRECT) j =
                st.disk (st.din.addrs P.NDIRECT) j
            · exact hsame
            · obtain ⟨-, -, h0⟩ := hdchar1 _ _ hsame
              exact absurd h0 hnz
          have hind1 : st1.din.addrs P.NDIRECT = st.din.addrs P.NDIRECT :=
            hpres1 P.NDIRECT le_rfl hne
          have e2 := htbl2 j
          rw [hind1] at e2
          have e3 := ihtab (by rw [hdin2, hind1]; exact hne) j
            (by rw [hdin2, hind1, e2, e1]; exact hnz)
          rw [hdin2, hind1] at e3
          rw [e3, e2, e1]
        · -- bytes below off preserved
          intro i hio hgi hmi
          have r1 := hrb1 i hgi hmi
          have m1 := hmono1 _ hmi
          have r2 := hrbold2 i hgi m1 hio
          have m2 := hmono2 _ m1
          have r3 := ihold i (by omega) hgi m2
          rw [r3, r2, r1]
        · -- the appended bytes read back
          intro k hk
          by_cases hkc : k < n1
          · have r2 := hrbnew2 k (by omega)
            have hbg : bytes.getD k 0 = data.getD k 0 := by
              rw [hbytes_def, List.getD_eq_getElem?_getD,
                List.getD_eq_getElem?_getD, List.getElem?_take, if_pos hkc]
            have hdk := hdivk k hkc
            have r3 := ihold (off + k) (by omega) (by rw [hdk]; exact hfbn)
              (by rw [hdk]; exact hmono2 _ hm1)
            rw [r3, r2, hbg]
          · have hk2 : k - n1 < (data.drop n1).length := by
              rw [List.length_drop]; omega
            have r := ihnew (k - n1) hk2
            have hidx : off + n1 + (k - n1) = off + k := by omega
            rw [hidx] at r
            rw [r, List.getD_eq_getElem?_getD, List.getD_eq_getElem?_getD,
              List.getElem?_drop]
            congr 2
            omega
        · -- mapped chains stay mapped
          exact fun g hm => ihmono g (hmono2 g (hmono1 g hm))
        · -- the mapping of mapped blocks is unchanged
          intro g hm
          have e1 := hbof1 g hm
          have e2 := hbof2 g
          have e3 := ihbof g (hmono2 g (hmono1 g hm))
          rw [e3, e2, e1]
        · -- every newly consumed block is reachable
          intro b hb1 hb2
          by_cases hbc : b < st1.freeblock
          · rcases hgap1 b hb1 hbc with hbind | hbx
            · left
              have hnz1 : st1.din.addrs P.NDIRECT ≠ 0 := by
                rw [← hbind]
                have := hwf.fb_pos
                omega
              have := ihpres P.NDIRECT le_rfl (by rw [hdin2]; exact hnz1)
              rw [this, hdin2, ← hbind]
            · right
              refine ⟨fbn, hfbn, ihmono fbn (hmono2 fbn hm1), ?_⟩
              have e2 := hbof2 fbn
              have e3 := ihbof fbn (hmono2 fbn hm1)
              rw [e3, e2, hbo1, hbx]
          · have := ihgap b (by rw [hfb2]; omega) hb2
            exact this
        · -- the last touched file block index is within MAXFILE
          intro hne0
          by_cases hrest : data.drop n1 = []
          · have hle : data.length ≤ n1 := List.drop_eq_nil_iff.mp hrest
            have : (off + data.length - 1) / P.BSIZE < fbn + 1 := by
              rw [Nat.div_lt_iff_lt_mul hB]
              omega
            omega
          · have := ihlast hrest
            rw [List.length_drop] at this
            have hidx : off + n1 + (data.length - n1) - 1 =
                off + data.length - 1 := by omega
            rw [hidx] at this
            exact this
        · -- every file block holding appended bytes is mapped
          intro i h1 h2
          by_cases hic : i < off + n1
          · have hdk : i / P.BSIZE = fbn := by
              apply div_eq_of_range _ _ _ hB <;> omega
            rw [hdk]
            exact ihmono fbn (hmono2 fbn hm1)
          · exact ihcover i (by omega) (by rw [List.length_drop]; omega)

end EXv6

namespace EXv6

theorem WF_empty (P : FsParams) (st : IState)
    (haddrs : ∀ i, st.din.addrs i = 0)
    (hdisk : ∀ b o, st.disk b o = 0)
    (hfb : 0 < st.freeblock) : WF P st := by
  refine ⟨hfb, ?_, ?_, ?_, ?_, ?_, ?_, ?_, ?_⟩
  · intro i hi; rw [haddrs]; exact hfb
  · intro hne; exact absurd (haddrs _) hne
  · intro b hb o; exact hdisk b o
  · intro i j hi hj hij hnz; exact absurd (haddrs i) hnz
  · intro i hi hnz; exact absurd (haddrs i) hnz
  · intro hne; exact absurd (haddrs _) hne
  · intro hne; exact absurd (haddrs _) hne
  · intro hne; exact absurd (haddrs _) hne

/-- C6: when `iappend` succeeds, the recorded size grows by exactly the
appended byte count and never exceeds `(NDIRECT + NINDIRECT) * BSIZE`
(the `assert(fbn < MAXFILE)` aborts any append that would map a
file-relative block index at or beyond that limit); a nonzero block
pointer is never replaced, a direct pointer that changed was zero before
and now holds a freshly allocated block (at or above the old allocation
cursor and below the new one), and every file block needed by the new
bytes is mapped through a nonzero pointer chain afterwards. -/
theorem iappend_size_invariant (P : FsParams) (hB : 0 < P.BSIZE)
    (st st' : IState) (data : List Nat)
    (hwf : WF P st)
    (hsz : st.din.size ≤ MAXFILE P * P.BSIZE)
    (hrun : iappend P st data = some st') :
    st'.din.size = st.din.size + data.length ∧
    st'.din.size ≤ MAXFILE P * P.BSIZE ∧
    (∀ i, i ≤ P.NDIRECT → st.din.addrs i ≠ 0 →
      st'.din.addrs i = st.din.addrs i) ∧
    (∀ i, i ≤ P.NDIRECT → st'.din.addrs i ≠ st.din.addrs i →
      st.din.addrs i = 0 ∧ st.freeblock ≤ st'.din.addrs i ∧
        st'.din.addrs i < st'.freeblock) ∧
    (∀ i, st.din.size ≤ i → i < st'.din.size →
      MappedNZ P st' (i / P.BSIZE)) := by
  unfold iappend at hrun
  obtain ⟨mWF, -, msize, mpres, mchg, -, -, -, -, -, -, mlast, mcover⟩ :=
    iappendLoop_spec P hB (data.length + 1) data st st.din.size st'
      (by omega) hwf hrun
  refine ⟨msize, ?_, mpres, ?_, ?_⟩
  · by_cases hnil : data = []
    · subst hnil
      rw [msize, List.length_nil]
      omega
    · have hlenpos : 0 < data.length := List.length_pos.mpr hnil
      have := mlast hnil
      rw [Nat.div_lt_iff_lt_mul hB] at this
      rw [msize]
      have hcm : MAXFILE P * P.BSIZE = P.BSIZE * MAXFILE P := Nat.mul_comm _ _
      omega
  · intro i hi hne
    obtain ⟨hz, hge⟩ := mchg i hi hne
    exact ⟨hz, hge, mWF.addrs_lt i hi⟩
  · intro i h1 h2
    rw [msize] at h2
    exact mcover i h1 h2

/-- C6 (witness): appending 13 bytes to an empty inode in the small
geometry succeeds, sets the size to 13 ≤ MAXFILE * BSIZE = 24, and maps
file blocks 0..3. -/
theorem iappend_size_invariant_witness :
    0 < Pw.BSIZE ∧
    stw.din.size ≤ MAXFILE Pw * Pw.BSIZE ∧
    (iappend Pw stw [1, 2, 3, 4, 5, 6, 7, 8, 9, 10, 11, 12, 13]).isSome =
      true ∧
    ((iappend Pw stw [1, 2, 3, 4, 5, 6, 7, 8, 9, 10, 11, 12, 13]).get
        (by decide)).din.size = stw.din.size + 13 := by
  refine ⟨by decide, by decide, by decide, ?_⟩
  exact (iappend_size_invariant Pw (by decide) stw _
    [1, 2, 3, 4, 5, 6, 7, 8, 9, 10, 11, 12, 13]
    (WF_empty Pw stw (fun i => rfl) (fun b o => rfl) (by decide))
    (by decide) (Option.some_get (by decide)).symm).1

/-- C7: appending N bytes to an empty file with `iappend` and then reading
them back from the image through the inode's block mapping (direct
pointers for the first NDIRECT file blocks, then entries of the single
indirect block) returns exactly the N bytes appended at exactly the
recorded offsets; N is arbitrary, so the file may span direct-only
blocks, the direct/indirect boundary, or reach into indirect-only
blocks. -/
theorem iappend_readback (P : FsParams) (hB : 0 < P.BSIZE)
    (st st' : IState) (data : List Nat)
    (hsize : st.din.size = 0)
    (haddrs : ∀ i, st.din.addrs i = 0)
    (hdisk : ∀ b o, st.disk b o = 0)
    (hfb : 0 < st.freeblock)
    (hrun : iappend P st data = some st') :
    st'.din.size = data.length ∧
    ∀ k, k < data.length → readByte P st' k = data.getD k 0 := by
  unfold iappend at hrun
  have hwf := WF_empty P st haddrs hdisk hfb
  obtain ⟨-, -, msize, -, -, -, -, mnew, -, -, -, -, -⟩ :=
    iappendLoop_spec P hB (data.length + 1) data st st.din.size st'
      (by omega) hwf hrun
  rw [hsize] at msize mnew
  constructor
  · rw [msize, Nat.zero_add]
  · intro k hk
    have := mnew k hk
    rw [Nat.zero_add] at this
    exact this

/-- C7 (witness): 13 bytes appended to an empty inode in the small
geometry (2 direct blocks of 4 bytes, then the indirect region: the data
spans the direct/indirect boundary) read back exactly; byte 12 lives in
the second indirect block. -/
theorem iappend_readback_witness :
    stw.din.size = 0 ∧ 0 < stw.freeblock ∧
    ((iappend Pw stw [1, 2, 3, 4, 5, 6, 7, 8, 9, 10, 11, 12, 13]).get
        (by decide)).din.size = 13 ∧
    readByte Pw ((iappend Pw stw
        [1, 2, 3, 4, 5, 6, 7, 8, 9, 10, 11, 12, 13]).get (by decide)) 12 =
      13 := by
  have h := iappend_readback Pw (by decide) stw _
    [1, 2, 3, 4, 5, 6, 7, 8, 9, 10, 11, 12, 13] rfl (fun i => rfl)
    (fun b o => rfl) (by decide) (Option.some_get (by decide)).symm
  refine ⟨rfl, by decide, h.1, ?_⟩
  rw [h.2 12 (by decide)]
  decide

end EXv6

namespace EXv6

theorem ballocBlock_bit (used b : Nat) :
    bitmapBit (ballocBlock used) b = true ↔ b < used := by
  induction used with
  | zero => simp [ballocBlock, bitmapBit]
  | succ u ih =>
    unfold ballocBlock bitmapBit
    rw [Function.update_apply]
    by_cases hb : b / 8 = u / 8
    · rw [if_pos hb, Nat.testBit_or, Nat.one_shiftLeft, Nat.testBit_two_pow]
      rw [Bool.or_eq_true, decide_eq_true_eq]
      unfold bitmapBit at ih
      rw [hb] at ih
      constructor
      · rintro (h | h)
        · have := ih.mp h; omega
        · omega
      · intro h
        by_cases hbu : b < u
        · exact Or.inl (ih.mpr hbu)
        · right; omega
    · rw [if_neg hb]
      unfold bitmapBit at ih
      rw [ih]
      omega

/-- C8: the bitmap block `balloc` writes has bit `b` set exactly for
`b < used` (under the asserted precondition that `used`, the number of
consumed blocks, fits one bitmap block), and `used = freeblock` is indeed
the count of consumed blocks: after any successful `iappend`, every block
a nonzero pointer chain reaches lies below the allocation cursor, and
conversely every block the run consumed at or above the old cursor is
reachable - it is the inode's indirect block or a mapped data block. -/
theorem balloc_bits_iff_consumed (P : FsParams) (hB : 0 < P.BSIZE)
    (st st' : IState) (data : List Nat) (BPB : Nat)
    (hwf : WF P st)
    (hrun : iappend P st data = some st')
    (hused : st'.freeblock < BPB) :
    (∀ b, b < BPB →
      (bitmapBit (ballocBlock st'.freeblock) b = true ↔
        b < st'.freeblock)) ∧
    (∀ g, g < MAXFILE P → MappedNZ P st' g →
      blockOf P st'.disk st'.din g < st'.freeblock) ∧
    (∀ b, st.freeblock ≤ b → b < st'.freeblock →
      b = st'.din.addrs P.NDIRECT ∨
        ∃ g, g < MAXFILE P ∧ MappedNZ P st' g ∧
          blockOf P st'.disk st'.din g = b) := by
  unfold iappend at hrun
  obtain ⟨mWF, -, -, -, -, -, -, -, -, -, mgap, -, -⟩ :=
    iappendLoop_spec P hB (data.length + 1) data st st.din.size st'
      (by omega) hwf hrun
  exact ⟨fun b hb => ballocBlock_bit st'.freeblock b,
    fun g hg hm => blockOf_lt P st' mWF g hg hm, mgap⟩

/-- C8 (witness): appending 5 bytes to an empty inode consumes blocks 1
and 2 (the cursor ends at 3 < BPB = 32); bit 2 of the balloc block is
set, bit 3 is clear. -/
theorem balloc_bits_iff_consumed_witness :
    0 < Pw.BSIZE ∧
    ((iappend Pw stw [1, 2, 3, 4, 5]).get (by decide)).freeblock < 32 ∧
    bitmapBit (ballocBlock
      ((iappend Pw stw [1, 2, 3, 4, 5]).get (by decide)).freeblock) 2 =
      true ∧
    bitmapBit (ballocBlock
      ((iappend Pw stw [1, 2, 3, 4, 5]).get (by decide)).freeblock) 3 =
      false := by
  have h := balloc_bits_iff_consumed Pw (by decide) stw _ [1, 2, 3, 4, 5] 32
    (WF_empty Pw stw (fun i => rfl) (fun b o => rfl) (by decide))
    (Option.some_get (by decide)).symm (by decide)
  refine ⟨by decide, by decide, (h.1 2 (by decide)).mpr (by decide), ?_⟩
  cases hbit : bitmapBit (ballocBlock
      ((iappend Pw stw [1, 2, 3, 4, 5]).get (by decide)).freeblock) 3
  · rfl
  · have := (h.1 3 (by decide)).mp hbit
    exact absurd this (by decide)

/-- C9: in the image mkfs builds, the root directory's first two entries
decode (through the inode's block mapping) to a `.` entry and a `..`
entry, both holding the root directory's own inode number 1 (`ROOTINO`,
checked by the assert at mkfs.c line 166); 46 is the byte value of the
character `.`, and the name fields are zero-padded to `DIRSIZ = 14`. -/
theorem root_dir_dot_entries :
    (rootBuild Px 14 stx).isSome = true ∧
    direntAt Px 14 ((rootBuild Px 14 stx).get (by decide)) 0 =
      (1, 46 :: List.replicate 13 0) ∧
    direntAt Px 14 ((rootBuild Px 14 stx).get (by decide)) 1 =
      (1, 46 :: 46 :: List.replicate 12 0) := by
  refine ⟨by decide, by decide, by decide⟩

/-- C10: the root-size fixup `((size / BSIZE) + 1) * BSIZE` always yields
a positive multiple of the block size strictly greater than the bytes
actually written; when the entries fill their blocks exactly
(`BSIZE ∣ size`) the recorded size spans one more block than the entries
occupy - concretely, in the small geometry a root directory whose 4 bytes
exactly fill block index 0 gets recorded size 8 although file block
index 1 was never allocated (its direct pointer is still 0). -/
theorem root_size_fixup (BSIZE s : Nat) (hB : 0 < BSIZE) :
    BSIZE ∣ rootSizeFix BSIZE s ∧
    0 < rootSizeFix BSIZE s ∧
    s < rootSizeFix BSIZE s ∧
    (BSIZE ∣ s → rootSizeFix BSIZE s / BSIZE = s / BSIZE + 1) ∧
    rootSizeFix Pw.BSIZE 4 = 8 ∧
    ((iappend Pw stw [9, 9, 9, 9]).get (by decide)).din.size = 4 ∧
    ((iappend Pw stw [9, 9, 9, 9]).get (by decide)).din.addrs 1 = 0 := by
  refine ⟨⟨s / BSIZE + 1, by unfold rootSizeFix; ring⟩, ?_, ?_, ?_,
    by decide, by decide, by decide⟩
  · unfold rootSizeFix
    exact Nat.mul_pos (Nat.succ_pos _) hB
  · unfold rootSizeFix
    have h1 := Nat.div_add_mod s BSIZE
    have h2 := Nat.mod_lt s hB
    have h3 : (s / BSIZE + 1) * BSIZE = s / BSIZE * BSIZE + BSIZE := by ring
    have h4 : s / BSIZE * BSIZE = BSIZE * (s / BSIZE) := Nat.mul_comm _ _
    omega
  · intro hdvd
    unfold rootSizeFix
    exact Nat.mul_div_cancel _ hB

/-- C10 (witness): with the live block size 1024 and a root directory of
exactly 1024 bytes of entries, the fixup records 2048 = 2 blocks. -/
theorem root_size_fixup_witness :
    0 < 1024 ∧
    (1024 ∣ rootSizeFix 1024 1024 ∧
      0 < rootSizeFix 1024 1024 ∧
      1024 < rootSizeFix 1024 1024 ∧
      (1024 ∣ 1024 → rootSizeFix 1024 1024 / 1024 = 1024 / 1024 + 1) ∧
      rootSizeFix Pw.BSIZE 4 = 8 ∧
      ((iappend Pw stw [9, 9, 9, 9]).get (by decide)).din.size = 4 ∧
      ((iappend Pw stw [9, 9, 9, 9]).get (by decide)).din.addrs 1 = 0) :=
  ⟨by decide, root_size_fixup 1024 1024 (by decide)⟩

end EXv6
